import Mathlib

/-!
# GeminiTranscriptionLab — verification of the core transformation functions

A shallow embedding, in Lean 4, of the pure core of the repository:

* `normalizeTimestamp` (services/geminiService.ts, the cascade-aware variant):
  arbitrary timestamp token → canonical `HH:MM:SS.mmm` display string;
* `tryRepairJson` (same file): raw, possibly truncated response blob →
  segment records, via a three-stage repair cascade (direct JSON parse,
  cut-at-last-brace repair, tolerant fragment scan);
* `parseTimestamp` / `findActive` (App.tsx): playhead → active segment index;
* `Exporters1.exportAsLRC` / `Exporters2.exportAsLRC` (utils/exporters.ts,
  both file versions): canonical segment list → LRC lyric-timing text.

JavaScript strings are embedded as `List Char` (wrapped in `String` at the
API boundary) and JavaScript numbers as `DecNum`, an exact rational
represented as an unreduced `ℤ × ℕ+` fraction.  `DecNum` mirrors every
arithmetic step of the source exactly over ℚ (all values arising in these
functions are small decimal fractions, where IEEE doubles and exact
rationals agree); the valuation `DecNum.val : DecNum → ℚ` carries proofs
into Mathlib's ordered-field lemmas.  Errors (`throw`) are embedded as
`Except`, `undefined`/`NaN` as `Option`.
-/

/-! ## JavaScript string primitives (on `List Char`) -/

/-- Whitespace for `String.prototype.trim` (ASCII whitespace plus the
unicode space characters JS trims that can appear in model output). -/
def isJsSpace (c : Char) : Bool :=
  c = ' ' || c = '\t' || c = '\n' || c = '\r' ||
  c = Char.ofNat 11 || c = Char.ofNat 12 || c = Char.ofNat 160 || c = Char.ofNat 0xfeff

/-- `s.trim()`: drop leading and trailing whitespace. -/
def jsTrim (l : List Char) : List Char :=
  ((l.dropWhile isJsSpace).reverse.dropWhile isJsSpace).reverse

/-- `s.replace(a, b)` with a one-character plain-string pattern: replace the
first occurrence only. -/
def replaceFirst : List Char → Char → Char → List Char
  | [], _, _ => []
  | c :: rest, a, b => if c = a then b :: rest else c :: replaceFirst rest a b

/-- `s.includes(c)` for a one-character needle. -/
def containsChar (l : List Char) (c : Char) : Bool :=
  l.any (fun x => x = c)

/-- `s.split(sep)` for a one-character separator: JS semantics, so
`"".split(":") = [""]` and a trailing separator yields a trailing `""`. -/
def splitCharAux (sep : Char) : List Char → List Char → List (List Char)
  | [], acc => [acc.reverse]
  | c :: rest, acc =>
    if c = sep then acc.reverse :: splitCharAux sep rest []
    else splitCharAux sep rest (c :: acc)

def splitChar (l : List Char) (sep : Char) : List (List Char) :=
  splitCharAux sep l []

/-- `s.lastIndexOf(c)`: index of the last occurrence, `none` for `-1`. -/
def lastIndexOfChar (l : List Char) (c : Char) : Option Nat :=
  (List.range l.length).foldl
    (fun acc i => if l.getD i ' ' = c then some i else acc) none

/-- ASCII decimal digit test (JS `\d`). -/
def isDig (c : Char) : Bool := '0' ≤ c && c ≤ '9'

/-- `String(n)` for a natural number: its decimal digits (fuel recursion so
that the kernel can evaluate it). -/
def natDigitsAux : Nat → Nat → List Char
  | 0, _ => []
  | fuel + 1, n =>
    if n < 10 then [Char.ofNat (48 + n)]
    else natDigitsAux fuel (n / 10) ++ [Char.ofNat (48 + n % 10)]

def natDigits (n : Nat) : List Char := natDigitsAux (n + 1) n

/-- `String(n)` for an integer. -/
def intDigits (n : Int) : List Char :=
  if n < 0 then '-' :: natDigits n.natAbs else natDigits n.toNat

/-- `s.padStart(width, pad)`. -/
def padStartChars (width : Nat) (pad : Char) (l : List Char) : List Char :=
  List.replicate (width - l.length) pad ++ l

/-- `s.padEnd(width, pad)`. -/
def padEndChars (width : Nat) (pad : Char) (l : List Char) : List Char :=
  l ++ List.replicate (width - l.length) pad

/-- Value of a digit run (the digits of `l` read in base 10). -/
def digitsToNat (l : List Char) : Nat :=
  l.foldl (fun acc c => 10 * acc + (c.toNat - 48)) 0

/-! ## JavaScript numbers: exact rationals with kernel-computable operations

Mathlib's `ℚ` normalizes through `Nat.gcd`, which the kernel cannot
evaluate, so concrete runs of the embedded code use `DecNum`: an unreduced
fraction `num / den`.  `DecNum.val` maps it to `ℚ` for stating and proving
order/field facts. -/

structure DecNum where
  num : Int
  den : ℕ+
deriving Repr, DecidableEq

namespace DecNum

def ofInt (n : Int) : DecNum := ⟨n, 1⟩

def ofNat (n : Nat) : DecNum := ⟨(n : Int), 1⟩

def add (a b : DecNum) : DecNum :=
  ⟨a.num * (b.den : Nat) + b.num * (a.den : Nat), a.den * b.den⟩

def neg (a : DecNum) : DecNum := ⟨-a.num, a.den⟩

def sub (a b : DecNum) : DecNum := a.add b.neg

/-- Multiplication by an integer (all multiplications in the sources are by
integer constants or integer-valued parse results). -/
def mulI (a : DecNum) (n : Int) : DecNum := ⟨a.num * n, a.den⟩

/-- Division by a positive natural constant. -/
def divP (a : DecNum) (n : ℕ+) : DecNum := ⟨a.num, a.den * n⟩

/-- `Math.floor`. -/
def floor (a : DecNum) : Int := a.num / (((a.den : Nat)) : Int)

/-- Truncation toward zero (the division underlying the JS `%` operator). -/
def trunc (a : DecNum) : Int := Int.tdiv a.num (a.den : Int)

/-- JS `a % n` for a positive integer constant `n`:
`a - n * trunc(a / n)` (remainder takes the dividend's sign). -/
def modP (a : DecNum) (n : ℕ+) : DecNum :=
  ⟨a.num - ((a.divP n).trunc * (n : Nat)) * (a.den : Nat), a.den⟩

/-- `Math.round`: `⌊x + 1/2⌋` (round half toward +∞), as an integer. -/
def roundJs (a : DecNum) : Int :=
  (2 * a.num + (a.den : Nat)) / (2 * (a.den : Nat) : Int)

/-- `a <= b` as a boolean (cross-multiplied; denominators are positive). -/
def leb (a b : DecNum) : Bool :=
  a.num * ((b.den : Nat) : Int) ≤ b.num * ((a.den : Nat) : Int)

/-- `a < b` as a boolean. -/
def ltb (a b : DecNum) : Bool :=
  a.num * ((b.den : Nat) : Int) < b.num * ((a.den : Nat) : Int)

/-- Valuation into ℚ. -/
def val (a : DecNum) : ℚ := (a.num : ℚ) / ((a.den : Nat) : ℚ)

theorem den_q_pos (a : DecNum) : (0 : ℚ) < ((a.den : Nat) : ℚ) := by
  exact_mod_cast a.den.pos

theorem den_q_ne (a : DecNum) : (((a.den : Nat) : ℚ)) ≠ 0 :=
  ne_of_gt a.den_q_pos

@[simp] theorem val_ofInt (n : Int) : (ofInt n).val = (n : ℚ) := by
  simp [ofInt, val]

@[simp] theorem val_ofNat (n : Nat) : (ofNat n).val = (n : ℚ) := by
  simp [ofNat, val]

@[simp] theorem val_add (a b : DecNum) : (a.add b).val = a.val + b.val := by
  have ha := a.den_q_ne
  have hb := b.den_q_ne
  field_simp [add, val]
  try push_cast
  try ring

@[simp] theorem val_neg (a : DecNum) : a.neg.val = -a.val := by
  simp [neg, val, neg_div]

@[simp] theorem val_sub (a b : DecNum) : (a.sub b).val = a.val - b.val := by
  simp [sub, sub_eq_add_neg]

@[simp] theorem val_mulI (a : DecNum) (n : Int) : (a.mulI n).val = a.val * (n : ℚ) := by
  have ha := a.den_q_ne
  field_simp [mulI, val]
  try ring

@[simp] theorem val_divP (a : DecNum) (n : ℕ+) :
    (a.divP n).val = a.val / ((n : Nat) : ℚ) := by
  have ha := a.den_q_ne
  have hn : (((n : Nat) : ℚ)) ≠ 0 := by exact_mod_cast n.ne_zero
  field_simp [divP, val]
  try push_cast
  try ring

theorem floor_eq (a : DecNum) : a.floor = ⌊a.val⌋ := by
  rw [val, Rat.floor_intCast_div_natCast a.num (a.den : Nat)]
  rfl

theorem leb_iff (a b : DecNum) : a.leb b = true ↔ a.val ≤ b.val := by
  unfold leb
  rw [decide_eq_true_eq, val, val, div_le_div_iff₀ a.den_q_pos b.den_q_pos]
  exact_mod_cast Iff.rfl

theorem ltb_iff (a b : DecNum) : a.ltb b = true ↔ a.val < b.val := by
  unfold ltb
  rw [decide_eq_true_eq, val, val, div_lt_div_iff₀ a.den_q_pos b.den_q_pos]
  exact_mod_cast Iff.rfl

theorem num_nonneg_of_val (a : DecNum) (h : 0 ≤ a.val) : 0 ≤ a.num := by
  rw [val] at h
  have := (div_nonneg_iff.mp h).resolve_right (fun ⟨_, hd⟩ =>
    absurd a.den_q_pos (not_lt.mpr hd))
  exact_mod_cast this.1

/-- For a nonnegative value, truncation toward zero is the floor. -/
theorem trunc_eq_floor (a : DecNum) (h : 0 ≤ a.val) : a.trunc = ⌊a.val⌋ := by
  rw [trunc, Int.tdiv_eq_ediv (a.num_nonneg_of_val h) (by positivity), ← floor, floor_eq]

/-- Value of the JS `%` operator, for a nonnegative dividend. -/
theorem val_modP (a : DecNum) (n : ℕ+) (h : 0 ≤ a.val) :
    (a.modP n).val = a.val - ((n : Nat) : ℚ) * ⌊a.val / ((n : Nat) : ℚ)⌋ := by
  have hdiv : 0 ≤ (a.divP n).val := by
    rw [val_divP]
    positivity
  have ht : (a.divP n).trunc = ⌊a.val / ((n : Nat) : ℚ)⌋ := by
    rw [trunc_eq_floor _ hdiv, val_divP]
  have hd := a.den_q_ne
  rw [modP, val, ht]
  push_cast
  field_simp [val]
  ring

theorem val_modP_nonneg (a : DecNum) (n : ℕ+) (h : 0 ≤ a.val) :
    0 ≤ (a.modP n).val := by
  rw [val_modP a n h, sub_nonneg]
  have hn : (0 : ℚ) < ((n : Nat) : ℚ) := by exact_mod_cast n.pos
  calc ((n : Nat) : ℚ) * ⌊a.val / ((n : Nat) : ℚ)⌋
      ≤ ((n : Nat) : ℚ) * (a.val / ((n : Nat) : ℚ)) :=
        mul_le_mul_of_nonneg_left (Int.floor_le _) (le_of_lt hn)
    _ = a.val := by field_simp

theorem val_modP_lt (a : DecNum) (n : ℕ+) (h : 0 ≤ a.val) :
    (a.modP n).val < ((n : Nat) : ℚ) := by
  rw [val_modP a n h, sub_lt_iff_lt_add]
  have hn : (0 : ℚ) < ((n : Nat) : ℚ) := by exact_mod_cast n.pos
  have hlt : a.val / ((n : Nat) : ℚ) < ⌊a.val / ((n : Nat) : ℚ)⌋ + 1 :=
    Int.lt_floor_add_one _
  calc a.val = ((n : Nat) : ℚ) * (a.val / ((n : Nat) : ℚ)) := by field_simp
    _ < ((n : Nat) : ℚ) * (⌊a.val / ((n : Nat) : ℚ)⌋ + 1) :=
        mul_lt_mul_of_pos_left hlt hn
    _ = ((n : Nat) : ℚ) + ((n : Nat) : ℚ) * ⌊a.val / ((n : Nat) : ℚ)⌋ := by ring

/-- `Math.round` is the floor of `x + 1/2`. -/
theorem roundJs_eq (a : DecNum) : a.roundJs = ⌊a.val + 1 / 2⌋ := by
  have h2 : ((2 * (a.den : Nat) : Nat) : Int) = 2 * ((a.den : Nat) : Int) := by push_cast; ring
  have : a.roundJs = (2 * a.num + ((a.den : Nat) : Int)) / ((2 * (a.den : Nat) : Nat) : Int) := by
    rw [roundJs, h2]
  rw [this, ← Rat.floor_intCast_div_natCast]
  congr 1
  have hd := a.den_q_ne
  rw [val]
  push_cast
  field_simp
  ring

end DecNum

/-! ## JavaScript numeric parsing (`parseInt`, `parseFloat`, `Number`) -/

/-- Maximal leading run of ASCII digits. -/
def digitRun (l : List Char) : List Char := l.takeWhile isDig

/-- Strip an optional leading sign, returning `(sign, rest)`. -/
def splitSign (l : List Char) : Int × List Char :=
  match l with
  | c :: rest => if c = '-' then (-1, rest) else if c = '+' then (1, rest) else (1, l)
  | [] => (1, [])

/-- `parseInt(s, 10) || 0`: leading whitespace, optional sign, maximal digit
prefix; no digits (`NaN`) collapses to `0`. -/
def jsParseIntOr0 (l : List Char) : Int :=
  let s := splitSign (l.dropWhile isJsSpace)
  let ds := digitRun s.2
  if ds = [] then 0 else s.1 * (digitsToNat ds : Int)

/-- `10 ^ k` as a positive natural. -/
def pow10P (k : Nat) : ℕ+ := ⟨10 ^ k, Nat.pos_pow_of_pos k (by omega)⟩

/-- Apply a base-10 exponent to an unreduced fraction. -/
def applyExp (mant : Int) (den : ℕ+) (e : Int) : DecNum :=
  if 0 ≤ e then ⟨mant * (10 ^ e.toNat : Nat), den⟩ else ⟨mant, den * pow10P (-e).toNat⟩

/-- The optional exponent suffix accepted by `parseFloat` (`e`/`E`, optional
sign, at least one digit — otherwise the suffix is ignored). -/
def floatExp : List Char → Int
  | c :: rest =>
    if c = 'e' || c = 'E' then
      let s := splitSign rest
      let ds := digitRun s.2
      if ds = [] then 0 else s.1 * (digitsToNat ds : Int)
    else 0
  | [] => 0

/-- `parseFloat(s)`: leading whitespace, optional sign, maximal prefix of the
form `digits[.digits][exponent]`; `none` is `NaN`.  (`Infinity` literals and
hex prefixes are outside the token alphabet reaching this code.) -/
def jsParseFloat (l : List Char) : Option DecNum :=
  let s := splitSign (l.dropWhile isJsSpace)
  let ip := digitRun s.2
  let afterInt := s.2.drop ip.length
  let fp := match afterInt with
    | '.' :: r => digitRun r
    | _ => []
  let afterFrac := match afterInt with
    | '.' :: r => r.drop (digitRun r).length
    | _ => afterInt
  if ip = [] && fp = [] then none
  else some (applyExp (s.1 * (digitsToNat (ip ++ fp) : Int)) (pow10P fp.length)
    (floatExp afterFrac))

/-- `parseFloat(s) || 0`. -/
def jsParseFloatOr0 (l : List Char) : DecNum :=
  match jsParseFloat l with
  | some q => q
  | none => DecNum.ofNat 0

/-- Hexadecimal digit value. -/
def hexVal (c : Char) : Option Nat :=
  if isDig c then some (c.toNat - 48)
  else if 'a' ≤ c && c ≤ 'f' then some (c.toNat - 87)
  else if 'A' ≤ c && c ≤ 'F' then some (c.toNat - 55)
  else none

/-- Fold a digit run in a given base, `none` if empty or a char is invalid. -/
def radixValue (digitOf : Char → Option Nat) (base : Nat) (l : List Char) : Option Nat :=
  if l = [] then none
  else l.foldl (fun acc c => match acc, digitOf c with
    | some a, some d => some (base * a + d)
    | _, _ => none) (some 0)

/-- `Number(s)` (the `.map(Number)` conversion): trims, `""` is `0`, radix
prefixes, otherwise the full string must be a signed decimal literal;
`none` is `NaN`.  (`Infinity` is outside the token alphabet reaching it.) -/
def jsNumber (l : List Char) : Option DecNum :=
  let t := jsTrim l
  if t = [] then some (DecNum.ofNat 0)
  else match t with
    | '0' :: 'x' :: r => (radixValue hexVal 16 r).map DecNum.ofNat
    | '0' :: 'X' :: r => (radixValue hexVal 16 r).map DecNum.ofNat
    | '0' :: 'o' :: r =>
      (radixValue (fun c => if '0' ≤ c && c ≤ '7' then some (c.toNat - 48) else none) 8 r).map
        DecNum.ofNat
    | '0' :: 'b' :: r =>
      (radixValue (fun c => if c = '0' || c = '1' then some (c.toNat - 48) else none) 2 r).map
        DecNum.ofNat
    | _ =>
      let s := splitSign t
      let ip := digitRun s.2
      let afterInt := s.2.drop ip.length
      let fp := match afterInt with
        | '.' :: r => digitRun r
        | _ => []
      let afterFrac := match afterInt with
        | '.' :: r => r.drop (digitRun r).length
        | _ => afterInt
      if ip = [] && fp = [] then none
      else
        let e : Option Int := match afterFrac with
          | [] => some 0
          | c :: rest =>
            if c = 'e' || c = 'E' then
              let se := splitSign rest
              let ds := digitRun se.2
              if ds = [] || se.2.drop ds.length ≠ [] then none
              else some (se.1 * (digitsToNat ds : Int))
            else none
        e.map (applyExp (s.1 * (digitsToNat (ip ++ fp) : Int)) (pow10P fp.length))

/-! ## `normalizeTimestamp` (services/geminiService.ts)

```js
function normalizeTimestamp(ts: string): string {
  if (!ts) return "00:00:00.000";
  let clean = ts.trim().replace(',', '.').replace(/[^\d:.]/g, '');
  if (!clean.includes(':') && /^[\d.]+$/.test(clean)) { ... return render(parseFloat(clean)); }
  const parts = clean.split(':');
  ... decompose into h, m, s, ms by parts.length ...
  const totalSeconds = (h * 3600) + (m * 60) + s + (ms / 1000);
  ... return render(totalSeconds);
}
```

Both exits render with the same four formulas
(`Math.floor(t/3600)`, `Math.floor((t%3600)/60)`, `Math.floor(t%60)`,
`Math.round((t%1)*1000)`, each zero-padded), so the embedding factors both
through `renderTotal`. -/

/-- The character class kept by `replace(/[^\d:.]/g, '')`. -/
def timeKeep (c : Char) : Bool := isDig c || c = ':' || c = '.'

/-- `ts.trim().replace(',', '.').replace(/[^\d:.]/g, '')`. -/
def cleanTs (l : List Char) : List Char :=
  (replaceFirst (jsTrim l) ',' '.').filter timeKeep

/-- `/^[\d.]+$/.test(clean)`. -/
def digitsDotsTest (l : List Char) : Bool :=
  !l.isEmpty && l.all (fun c => isDig c || c = '.')

/-- The `h`, `m`, `s`, `ms` decomposition by component count
(`parts.length === 4 / 3 / 2`, anything else left at the zero initializers). -/
def partsHMS : List (List Char) → Int × Int × Int × Int
  | [p0, p1, p2, p3] =>
    (jsParseIntOr0 p0, jsParseIntOr0 p1, jsParseIntOr0 p2,
      jsParseIntOr0 (padEndChars 3 '0' (p3.take 3)))
  | [p0, p1, p2] =>
    let h0 := jsParseIntOr0 p0
    let m0 := jsParseIntOr0 p1
    if containsChar p2 '.' then
      let secParts := splitChar p2 '.'
      (h0, m0, jsParseIntOr0 (secParts.headD []),
        jsParseIntOr0 (padEndChars 3 '0' ((secParts.getD 1 []).take 3)))
    else
      let p2v := jsParseIntOr0 p2
      if p2.length = 3 ∨ p2v > 59 then (0, h0, m0, p2v) else (h0, m0, p2v, 0)
  | [p0, p1] =>
    let m0 := jsParseIntOr0 p0
    if containsChar p1 '.' then
      let secParts := splitChar p1 '.'
      (0, m0, jsParseIntOr0 (secParts.headD []),
        jsParseIntOr0 (padEndChars 3 '0' ((secParts.getD 1 []).take 3)))
    else (0, m0, jsParseIntOr0 p1, 0)
  | _ => (0, 0, 0, 0)

/-- `(h * 3600) + (m * 60) + s + (ms / 1000)`. -/
def totalOfHMS (h m s ms : Int) : DecNum :=
  (DecNum.ofInt (h * 3600 + m * 60 + s)).add ((DecNum.ofInt ms).divP 1000)

/-- The rendering shared by both exits: zero-padded
`HH:MM:SS.mmm` from integers. -/
def renderClock (h m s ms : Int) : List Char :=
  padStartChars 2 '0' (intDigits h) ++ ':' :: padStartChars 2 '0' (intDigits m) ++
  ':' :: padStartChars 2 '0' (intDigits s) ++ '.' :: padStartChars 3 '0' (intDigits ms)

/-- `finalH`/`finalM`/`finalS`/`finalMs` of a total-seconds value, rendered. -/
def renderTotal (t : DecNum) : List Char :=
  renderClock ((t.divP 3600).floor) (((t.modP 3600).divP 60).floor)
    ((t.modP 60).floor) (((t.modP 1).mulI 1000).roundJs)

/-- The total-seconds value rendered for an (already cleaned) token: the
`parseFloat` shortcut when the cleaned token is colon-free, the component
decomposition otherwise. -/
def normTotalClean (clean : List Char) : DecNum :=
  match (if !containsChar clean ':' && digitsDotsTest clean
         then jsParseFloat clean else none) with
  | some t => t
  | none =>
    let hms := partsHMS (splitChar clean ':')
    totalOfHMS hms.1 hms.2.1 hms.2.2.1 hms.2.2.2

/-- The total-seconds value `normalizeTimestamp` renders for a non-empty
token. -/
def normTotalBody (l : List Char) : DecNum :=
  normTotalClean (cleanTs l)

/-- `normalizeTimestamp` (geminiService.ts): timestamp token →
canonical display string. -/
def normalizeTimestamp (ts : String) : String :=
  if ts = "" then "00:00:00.000"
  else String.mk (renderTotal (normTotalBody ts.data))

example : normalizeTimestamp "00:23" = "00:00:23.000" := by decide
example : normalizeTimestamp "1:02:03.500" = "01:02:03.500" := by decide
example : normalizeTimestamp "00:65.250" = "00:01:05.250" := by decide
example : normalizeTimestamp "" = "00:00:00.000" := by decide
example : normalizeTimestamp "0.9996" = "00:00:00.1000" := by decide
example : normalizeTimestamp "-5" = "00:00:05.000" := by decide
example : normalizeTimestamp "normalizeTimestamp 0:0:123" = "00:00:00.123" := by decide

/-! ## JSON values and `JSON.parse` -/

/-- The JavaScript values `JSON.parse` can produce. -/
inductive JsValue where
  | null : JsValue
  | bool (b : Bool) : JsValue
  | num (v : DecNum) : JsValue
  | str (s : String) : JsValue
  | arr (elems : List JsValue) : JsValue
  | obj (fields : List (String × JsValue)) : JsValue

/-- JSON insignificant whitespace. -/
def isJsonWs (c : Char) : Bool := c = ' ' || c = '\t' || c = '\n' || c = '\r'

/-- Strict JSON number at the head of the input: `-? int frac? exp?`. -/
def parseJsonNumber (l : List Char) : Option (DecNum × List Char) :=
  let s : Int × List Char := match l with
    | '-' :: r => (-1, r)
    | _ => (1, l)
  let ip := digitRun s.2
  if ip = [] then none
  else if 1 < ip.length && ip.headD ' ' = '0' then none
  else
    let l2 := s.2.drop ip.length
    let fres : Option (List Char × List Char) := match l2 with
      | '.' :: r => if digitRun r = [] then none else some (digitRun r, r.drop (digitRun r).length)
      | _ => some ([], l2)
    match fres with
    | none => none
    | some (fp, l3) =>
      let eres : Option (Int × List Char) := match l3 with
        | c :: r =>
          if c = 'e' || c = 'E' then
            let se := splitSign r
            let ds := digitRun se.2
            if ds = [] then none else some (se.1 * (digitsToNat ds : Int), se.2.drop ds.length)
          else some (0, l3)
        | [] => some (0, [])
      match eres with
      | none => none
      | some (e, l4) =>
        some (applyExp (s.1 * (digitsToNat (ip ++ fp) : Int)) (pow10P fp.length) e, l4)

/-- The value of four hex digits. -/
def hexQuad (a b c d : Char) : Option Nat :=
  match hexVal a, hexVal b, hexVal c, hexVal d with
  | some x, some y, some z, some w => some (4096 * x + 256 * y + 16 * z + w)
  | _, _, _, _ => none

/-- A unicode scalar as a `Char`, the replacement character for the lone
surrogates JS strings tolerate but Lean `Char` cannot hold. -/
def charOfCode (n : Nat) : Char :=
  if h : n.isValidChar then ⟨⟨n, by exact Char.isValidUInt32 n h⟩, by
    simpa [UInt32.isValidChar] using h⟩
  else Char.ofNat 0xfffd

/-- Strict JSON string body (after the opening quote): escapes, rejection of
raw control characters, `\uXXXX` with surrogate-pair combination
(fuel-indexed for kernel evaluation). -/
def parseJsonStringAux : Nat → List Char → List Char → Option (List Char × List Char)
  | 0, _, _ => none
  | _ + 1, [], _ => none
  | fuel + 1, c :: rest, acc =>
    if c = '"' then some (acc.reverse, rest)
    else if c = '\\' then
      match rest with
      | [] => none
      | 'u' :: a :: b :: c2 :: d :: r3 =>
        match hexQuad a b c2 d with
        | none => none
        | some n =>
          if 0xd800 ≤ n && n < 0xdc00 then
            match r3 with
            | '\\' :: 'u' :: a2 :: b2 :: c3 :: d2 :: r4 =>
              match hexQuad a2 b2 c3 d2 with
              | some m =>
                if 0xdc00 ≤ m && m < 0xe000 then
                  parseJsonStringAux fuel r4
                    (charOfCode (0x10000 + (n - 0xd800) * 1024 + (m - 0xdc00)) :: acc)
                else parseJsonStringAux fuel r4 (charOfCode m :: charOfCode n :: acc)
              | none => none
            | _ => parseJsonStringAux fuel r3 (charOfCode n :: acc)
          else parseJsonStringAux fuel r3 (charOfCode n :: acc)
      | e :: r2 =>
        if e = '"' then parseJsonStringAux fuel r2 ('"' :: acc)
        else if e = '\\' then parseJsonStringAux fuel r2 ('\\' :: acc)
        else if e = '/' then parseJsonStringAux fuel r2 ('/' :: acc)
        else if e = 'b' then parseJsonStringAux fuel r2 (Char.ofNat 8 :: acc)
        else if e = 'f' then parseJsonStringAux fuel r2 (Char.ofNat 12 :: acc)
        else if e = 'n' then parseJsonStringAux fuel r2 ('\n' :: acc)
        else if e = 'r' then parseJsonStringAux fuel r2 ('\r' :: acc)
        else if e = 't' then parseJsonStringAux fuel r2 ('\t' :: acc)
        else none
    else if c.toNat < 32 then none
    else parseJsonStringAux fuel rest (c :: acc)

def parseJsonStringBody (l : List Char) : Option (List Char × List Char) :=
  parseJsonStringAux (l.length + 1) l []

mutual

/-- Strict JSON value at the head of the input (fuel-indexed so the kernel
can evaluate it; the top-level entry point supplies ample fuel). -/
def parseJsonValue : Nat → List Char → Option (JsValue × List Char)
  | 0, _ => none
  | fuel + 1, l =>
    match l.dropWhile isJsonWs with
    | '{' :: r =>
      match r.dropWhile isJsonWs with
      | '}' :: r2 => some (.obj [], r2)
      | r2 => (parseJsonMembers fuel r2 []).map (fun p => (JsValue.obj p.1, p.2))
    | '[' :: r =>
      match r.dropWhile isJsonWs with
      | ']' :: r2 => some (.arr [], r2)
      | r2 => (parseJsonItems fuel r2 []).map (fun p => (JsValue.arr p.1, p.2))
    | '"' :: r => (parseJsonStringBody r).map (fun p => (JsValue.str (String.mk p.1), p.2))
    | 't' :: 'r' :: 'u' :: 'e' :: r => some (.bool true, r)
    | 'f' :: 'a' :: 'l' :: 's' :: 'e' :: r => some (.bool false, r)
    | 'n' :: 'u' :: 'l' :: 'l' :: r => some (.null, r)
    | l2 => (parseJsonNumber l2).map (fun p => (JsValue.num p.1, p.2))

/-- Array elements after the first token of a non-empty array. -/
def parseJsonItems : Nat → List Char → List JsValue → Option (List JsValue × List Char)
  | 0, _, _ => none
  | fuel + 1, l, acc =>
    match parseJsonValue fuel l with
    | none => none
    | some (v, r) =>
      match r.dropWhile isJsonWs with
      | ',' :: r2 => parseJsonItems fuel r2 (v :: acc)
      | ']' :: r2 => some ((v :: acc).reverse, r2)
      | _ => none

/-- Object members of a non-empty object. -/
def parseJsonMembers : Nat → List Char → List (String × JsValue) →
    Option (List (String × JsValue) × List Char)
  | 0, _, _ => none
  | fuel + 1, l, acc =>
    match l.dropWhile isJsonWs with
    | '"' :: r =>
      match parseJsonStringBody r with
      | none => none
      | some (key, r2) =>
        match r2.dropWhile isJsonWs with
        | ':' :: r3 =>
          match parseJsonValue fuel r3 with
          | none => none
          | some (v, r4) =>
            match r4.dropWhile isJsonWs with
            | ',' :: r5 => parseJsonMembers fuel r5 ((String.mk key, v) :: acc)
            | '}' :: r5 => some (((String.mk key, v) :: acc).reverse, r5)
            | _ => none
        | _ => none
    | _ => none

end

/-- `JSON.parse(s)`: one value, no trailing content; `none` embeds the
thrown `SyntaxError`. -/
def jsonParse (l : List Char) : Option JsValue :=
  match parseJsonValue (2 * l.length + 2) l with
  | some (v, rest) => if rest.dropWhile isJsonWs = [] then some v else none
  | none => none

/-! ## `tryRepairJson` (services/geminiService.ts) -/

/-- Property lookup `fields.key` (JSON.parse keeps the last duplicate). -/
def objLookup (fields : List (String × JsValue)) (key : String) : Option JsValue :=
  fields.foldl (fun acc f => if f.1 = key then some f.2 else acc) none

/-- `parsed.segments`: `none` both for `undefined` and for the thrown (and
caught) access on a non-object. -/
def getSegmentsProp : JsValue → Option JsValue
  | .obj fields => objLookup fields "segments"
  | _ => none

/-- JS truthiness of a parsed value (an empty array is truthy). -/
def truthy : JsValue → Bool
  | .null => false
  | .bool b => b
  | .num v => !(v.num = 0)
  | .str s => !(s = "")
  | .arr _ => true
  | .obj _ => true

def isArrayV : JsValue → Bool
  | .arr _ => true
  | _ => false

/-- `if (parsed.segments && Array.isArray(parsed.segments)) return parsed`. -/
def acceptSegments (parsed : JsValue) : Option JsValue :=
  match getSegmentsProp parsed with
  | some seg => if truthy seg && isArrayV seg then some parsed else none
  | none => none

/-- Cascade stage 1: direct parse of the trimmed blob. -/
def stage1 (trimmed : List Char) : Option JsValue :=
  match jsonParse trimmed with
  | some parsed => acceptSegments parsed
  | none => none

/-- The truncation repair text: cut at the last `}` and close `]}`. -/
def repairCut (trimmed : List Char) : Option (List Char) :=
  (lastIndexOfChar trimmed '}').map (fun i => trimmed.take (i + 1) ++ [']', '}'])

/-- Cascade stage 2: parse the cut-and-closed text. -/
def stage2 (trimmed : List Char) : Option JsValue :=
  match repairCut trimmed with
  | some repaired =>
    match jsonParse repaired with
    | some parsed => acceptSegments parsed
    | none => none
  | none => none

/-! ### Cascade stage 3: the tolerant fragment scan

```
/\{\s*"startTime"\s*:\s*"?([^",]+)"?\s*,\s*"endTime"\s*:\s*"?([^",]+)"?\s*,
  \s*"text"\s*:\s*(?:"((?:[^"\\]|\\.)*)"|'((?:[^'\\]|\\.)*)')/g
```

The classes `[^",]` / `[^"\\]` / `[^'\\]` exclude exactly the characters the
surrounding context needs, so the greedy runs below match what the
backtracking engine matches. -/

def notQuoteComma (c : Char) : Bool := !(c = '"' || c = ',')

/-- Match a literal character sequence, returning the rest. -/
def expectLit : List Char → List Char → Option (List Char)
  | [], l => some l
  | c :: cs, x :: xs => if x = c then expectLit cs xs else none
  | _ :: _, [] => none

/-- `"?([^",]+)"?` — a timestamp-ish value, optionally quoted. -/
def matchTimeValue (l : List Char) : Option (List Char × List Char) :=
  match l with
  | '"' :: r =>
    let run := r.takeWhile notQuoteComma
    if run = [] then none
    else
      match r.drop run.length with
      | '"' :: r3 => some (run, r3)
      | r2 => some (run, r2)
  | _ =>
    let run := l.takeWhile notQuoteComma
    if run = [] then none else some (run, l.drop run.length)

/-- `((?:[^q\\]|\\.)*)q` for quote character `q`: the raw (still escaped)
content up to the closing quote; `\\.` does not match a line terminator. -/
def matchQuoted (q : Char) : List Char → List Char → Option (List Char × List Char)
  | [], _ => none
  | c :: rest, acc =>
    if c = q then some (acc.reverse, rest)
    else if c = '\\' then
      match rest with
      | [] => none
      | e :: r2 =>
        if e = '\n' || e = '\r' || e = Char.ofNat 0x2028 || e = Char.ofNat 0x2029 then none
        else matchQuoted q r2 (e :: '\\' :: acc)
    else matchQuoted q rest (c :: acc)

/-- The text alternative: double- or single-quoted. -/
def matchTextValue (l : List Char) : Option (List Char × List Char) :=
  match l with
  | '"' :: r => matchQuoted '"' r []
  | '\'' :: r => matchQuoted '\'' r []
  | _ => none

/-- Global plain replacement, left to right, non-overlapping. -/
def replaceAllAux (pat rep : List Char) : Nat → List Char → List Char
  | 0, l => l
  | _ + 1, [] => []
  | fuel + 1, l@(c :: rest) =>
    if pat.isPrefixOf l then rep ++ replaceAllAux pat rep fuel (l.drop pat.length)
    else c :: replaceAllAux pat rep fuel rest

def replaceAll (pat rep l : List Char) : List Char :=
  replaceAllAux pat rep (l.length + 1) l

/-- The unescape step for a matched text value:
`JSON.parse('"' + raw.replace(/"/g, '\\"') + '"')`, falling back (on a
`SyntaxError`) to rewriting only `\"`, `\'` and `\\`. -/
def unescapeJsText (raw : List Char) : List Char :=
  let quoted := '"' :: (replaceAll ['"'] ['\\', '"'] raw ++ ['"'])
  match jsonParse quoted with
  | some (JsValue.str s) => s.data
  | _ =>
    replaceAll ['\\', '\\'] ['\\']
      (replaceAll ['\\', '\''] ['\''] (replaceAll ['\\', '"'] ['"'] raw))

/-- The record pushed for one regex match. -/
def mkSegRecord (st en raw : List Char) : JsValue :=
  JsValue.obj [("startTime", .str (String.mk st)), ("endTime", .str (String.mk en)),
    ("text", .str (String.mk (unescapeJsText raw)))]

/-- One attempted match of the segment pattern at the current position. -/
def matchSegAt (l : List Char) : Option (JsValue × List Char) :=
  match l with
  | '{' :: r0 => do
    let r1 := r0.dropWhile isJsSpace
    let r2 ← expectLit "\"startTime\"".data r1
    let r3 ← expectLit [':'] (r2.dropWhile isJsSpace)
    let (st, r4) ← matchTimeValue (r3.dropWhile isJsSpace)
    let r5 ← expectLit [','] (r4.dropWhile isJsSpace)
    let r6 ← expectLit "\"endTime\"".data (r5.dropWhile isJsSpace)
    let r7 ← expectLit [':'] (r6.dropWhile isJsSpace)
    let (en, r8) ← matchTimeValue (r7.dropWhile isJsSpace)
    let r9 ← expectLit [','] (r8.dropWhile isJsSpace)
    let r10 ← expectLit "\"text\"".data (r9.dropWhile isJsSpace)
    let r11 ← expectLit [':'] (r10.dropWhile isJsSpace)
    let (raw, rEnd) ← matchTextValue (r11.dropWhile isJsSpace)
    some (mkSegRecord st en raw, rEnd)
  | _ => none

/-- `regex.exec` loop: leftmost matches, resuming after each match. -/
def scanAux : Nat → List Char → List JsValue
  | 0, _ => []
  | _ + 1, [] => []
  | fuel + 1, l@(_ :: rest) =>
    match matchSegAt l with
    | some (r, rem) => r :: scanAux fuel rem
    | none => scanAux fuel rest

def scanSegments (l : List Char) : List JsValue :=
  scanAux (l.length + 1) l

/-- `tryRepairJson` (geminiService.ts): the three-stage repair cascade;
`Except.error` embeds the thrown `Error`. -/
def tryRepairJson (jsonString : String) : Except String JsValue :=
  let trimmed := jsTrim jsonString.data
  match stage1 trimmed with
  | some v => .ok v
  | none =>
    match stage2 trimmed with
    | some v => .ok v
    | none =>
      let segments := scanSegments trimmed
      if 0 < segments.length then .ok (JsValue.obj [("segments", JsValue.arr segments)])
      else .error "Response structure invalid and could not be repaired."

/-- The caller's `parsed.segments || []` record list. -/
def segmentsOf (v : JsValue) : List JsValue :=
  match getSegmentsProp v with
  | some (.arr l) => l
  | _ => []

/-! ## `parseTimestamp` and `findActive` (App.tsx) -/

/-- The segment record (types.ts). -/
structure TranscriptionSegment where
  startTime : String
  endTime : String
  text : String
  translatedText : Option String := none
deriving DecidableEq

/-- `parseTimestamp` (App.tsx): trim, lower-case, strip `m`/`s` characters,
comma to dot; colon-split into 3 or 2 `parseFloat(p) || 0` components, any
other shape falling through to `parseFloat(str) || 0`. -/
def parseTimestamp (timestamp : String) : DecNum :=
  let str := replaceFirst
    (((jsTrim timestamp.data).map Char.toLower).filter (fun c => !(c = 'm' || c = 's')))
    ',' '.'
  if containsChar str ':' then
    let parts := (splitChar str ':').map (fun p => jsParseFloatOr0 p)
    match parts with
    | [a, b, c] => ((a.mulI 3600).add (b.mulI 60)).add c
    | [a, b] => (a.mulI 60).add b
    | _ => jsParseFloatOr0 str
  else jsParseFloatOr0 str

/-- `EPSILON = 0.05` — the 50 ms hysteresis buffer. -/
def EPSILON : DecNum := ⟨5, 100⟩

/-- One element of the `normalized` array; `stop` embeds the source's `end`
field (a Lean keyword). -/
structure NormEntry where
  idx : Nat
  start : DecNum
  stop : DecNum

/-- The `normalized` array of `findActive`. -/
def normEntries (segments : List TranscriptionSegment) : List NormEntry :=
  segments.enum.map (fun p =>
    NormEntry.mk p.1 (parseTimestamp p.2.startTime) (parseTimestamp p.2.endTime))

/-- The containment test `currentTime >= m.start && currentTime < m.end`. -/
def containsB (t : DecNum) (m : NormEntry) : Bool :=
  m.start.leb t && t.ltb m.stop

/-- The fallback loop of `findActive`: update the candidate while
`currentTime >= start - EPSILON`, `break` at the first failure. -/
def fallbackScan : List NormEntry → DecNum → Int → Int
  | [], _, cand => cand
  | m :: rest, t, cand =>
    if (m.start.sub EPSILON).leb t then fallbackScan rest t (m.idx : Int) else cand

/-- `findActive` (App.tsx): active segment index for the current playhead,
`-1` for none. -/
def findActive (segments : List TranscriptionSegment) (currentTime : DecNum) : Int :=
  if segments.length = 0 then -1
  else
    let normalized := normEntries segments
    let exactMatches := normalized.filter (containsB currentTime)
    match exactMatches with
    | m :: _ => (m.idx : Int)
    | [] => fallbackScan normalized currentTime (-1)

example : findActive [⟨"0", "2", "a", none⟩, ⟨"2", "5", "b", none⟩] ⟨199, 100⟩ = 0 := by decide
example : findActive [⟨"0", "2", "a", none⟩, ⟨"2", "5", "b", none⟩] ⟨2, 1⟩ = 1 := by decide
example : findActive [⟨"0", "2", "a", none⟩, ⟨"2", "5", "b", none⟩] ⟨6, 1⟩ = 1 := by decide
example : findActive [⟨"0", "2", "a", none⟩, ⟨"2", "5", "b", none⟩] ⟨-1, 1⟩ = -1 := by decide
example : findActive [⟨"10", "11", "a", none⟩, ⟨"0", "1", "b", none⟩] ⟨5, 1⟩ = -1 := by decide
example : findActive [⟨"0", "1", "b", none⟩, ⟨"10", "11", "a", none⟩] ⟨5, 1⟩ = 0 := by decide

/-! ## The LRC exporters (utils/exporters.ts, both file versions) -/

/-- The `original` / `translated` variant selector. -/
inductive ExportType where
  | original : ExportType
  | translated : ExportType

/-- `type === 'translated' ? (s.translatedText || '') : s.text`. -/
def selText (type : ExportType) (s : TranscriptionSegment) : String :=
  match type with
  | .translated => s.translatedText.getD ""
  | .original => s.text

namespace Exporters1

/-- Version 1's `parseTimestampToSeconds` is character-for-character the
same algorithm as App.tsx's `parseTimestamp`. -/
def parseTimestampToSeconds (ts : String) : DecNum := parseTimestamp ts

/-- Version 1's `formatSecondsToLRC`:
`[MM:SS.hh]` via `Math.floor` / `Math.round((s % 1) * 100)`. -/
def formatSecondsToLRC (t : DecNum) : List Char :=
  let m := (t.divP 60).floor
  let s := t.modP 60
  let sInt := s.floor
  let ms := ((s.modP 1).mulI 100).roundJs
  '[' :: (padStartChars 2 '0' (intDigits m) ++ ':' ::
    (padStartChars 2 '0' (intDigits sInt) ++ '.' ::
      (padStartChars 2 '0' (intDigits ms) ++ [']'])))

/-- `text.replace(/[\r\n]+/g, ' ')`: collapse each newline run to one
space (fuel-indexed). -/
def collapseAux : Nat → List Char → List Char
  | 0, l => l
  | _ + 1, [] => []
  | fuel + 1, c :: rest =>
    if c = '\r' || c = '\n' then
      ' ' :: collapseAux fuel (rest.dropWhile (fun x => x = '\r' || x = '\n'))
    else c :: collapseAux fuel rest

def collapseNewlines (l : List Char) : List Char := collapseAux (l.length + 1) l

/-- Version 1's `exportAsLRC`: one `[MM:SS.hh]text` line per segment, text
newline-collapsed, no clearing markers (`totalDuration` unused). -/
def exportAsLRC (segments : List TranscriptionSegment) (type : ExportType)
    (_totalDuration : Option DecNum) : String :=
  String.mk (List.intercalate ['\n'] (segments.map (fun s =>
    formatSecondsToLRC (parseTimestampToSeconds s.startTime) ++
      collapseNewlines (selText type s).data)))

end Exporters1

namespace Exporters2

/-- `NaN`-propagating arithmetic for version 2 (`Number` can yield `NaN`,
and `NaN` flows through `+`, `*` and makes comparisons false). -/
def nAdd (a b : Option DecNum) : Option DecNum :=
  match a, b with
  | some x, some y => some (x.add y)
  | _, _ => none

def nMulI (a : Option DecNum) (n : Int) : Option DecNum :=
  a.map (fun x => x.mulI n)

def nGt (a b : Option DecNum) : Bool :=
  match a, b with
  | some x, some y => y.ltb x
  | _, _ => false

def nLe (a b : Option DecNum) : Bool :=
  match a, b with
  | some x, some y => x.leb y
  | _, _ => false

/-- Version 2's `parseTimestampToSeconds`: comma to dot, colon-split,
`.map(Number)`, 3/2/1-component combination, otherwise `0`. -/
def parseTimestampToSeconds (ts : String) : Option DecNum :=
  if ts = "" then some (DecNum.ofNat 0)
  else
    let cleanTs := replaceFirst ts.data ',' '.'
    let parts := (splitChar cleanTs ':').map jsNumber
    match parts with
    | [a, b, c] => nAdd (nAdd (nMulI a 3600) (nMulI b 60)) c
    | [a, b] => nAdd (nMulI a 60) b
    | [a] => a
    | _ => some (DecNum.ofNat 0)

/-- `x.toFixed(2)` for a nonnegative finite value (ties pick the larger
candidate, i.e. round half up); the sign recursion of the spec prepends
`-`.  Exact rather than double-rounded, which agrees on the 2-decimal
values flowing through this exporter. -/
def toFixed2Pos (q : DecNum) : List Char :=
  let n := ((q.mulI 100).roundJs).toNat
  natDigits (n / 100) ++ '.' :: padStartChars 2 '0' (natDigits (n % 100))

def toFixed2 (q : DecNum) : List Char :=
  if q.num < 0 then '-' :: toFixed2Pos q.neg else toFixed2Pos q

/-- Version 2's `formatSecondsToLRC`: `toFixed(2)`, split on the dot,
re-pad; a `NaN` total renders the literal JS `"[NaN:NaN.00]"`. -/
def formatSecondsToLRC (t : Option DecNum) : List Char :=
  match t with
  | none => "[NaN:NaN.00]".data
  | some q =>
    let m := (q.divP 60).floor
    let fx := toFixed2 (q.modP 60)
    let parts := splitChar fx '.'
    let ss := parts.headD []
    let msp := parts.getD 1 []
    let msp2 := if msp = [] then ['0', '0'] else msp
    '[' :: (padStartChars 2 '0' (intDigits m) ++ ':' ::
      (padStartChars 2 '0' ss ++ '.' :: (padEndChars 2 '0' (msp2.take 2) ++ [']'])))

/-- The body of version 2's `exportAsLRC` loop, one segment at a time:
the lyric line, then the gap clearing marker (`nextStart > end + 4`), and
after the final segment the duration-aware trailing marker. -/
def lrcLines (type : ExportType) (totalDuration : Option DecNum) :
    List TranscriptionSegment → List (List Char)
  | [] => []
  | s :: rest =>
    let startTime := parseTimestampToSeconds s.startTime
    let endTime := parseTimestampToSeconds s.endTime
    let text := selText type s
    let line := formatSecondsToLRC startTime ++ text.data
    let clearingTime := nAdd endTime (some (DecNum.ofNat 4))
    let extra : List (List Char) :=
      match rest with
      | next :: _ =>
        let nextStartTime := parseTimestampToSeconds next.startTime
        if nGt nextStartTime clearingTime then [formatSecondsToLRC clearingTime] else []
      | [] =>
        match totalDuration with
        | some d => if nLe clearingTime (some d) then [formatSecondsToLRC clearingTime] else []
        | none => [formatSecondsToLRC clearingTime]
    line :: (extra ++ lrcLines type totalDuration rest)

/-- Version 2's `exportAsLRC` (the gap-aware variant). -/
def exportAsLRC (segments : List TranscriptionSegment) (type : ExportType)
    (totalDuration : Option DecNum) : String :=
  String.mk (List.intercalate ['\n'] (lrcLines type totalDuration segments))

end Exporters2

example : Exporters2.exportAsLRC [⟨"0", "2", "A", none⟩, ⟨"0:10", "0:12", "B", none⟩]
    .original none = "[00:00.00]A\n[00:06.00]\n[00:10.00]B\n[00:16.00]" := by decide
example : Exporters2.exportAsLRC [⟨"0", "2", "A", none⟩, ⟨"0:10", "0:12", "B", none⟩]
    .original (some (DecNum.ofNat 14)) = "[00:00.00]A\n[00:06.00]\n[00:10.00]B" := by decide
example : Exporters2.exportAsLRC [⟨"0", "2", "a\nb", none⟩] .original none
    = "[00:00.00]a\nb\n[00:06.00]" := by decide
example : Exporters1.exportAsLRC [⟨"0", "2", "a\nb", none⟩] .original none
    = "[00:00.00]a b" := by decide

/-! ## Toolbox: character classes -/

theorem isDig_iff_toNat {c : Char} : isDig c = true ↔ 48 ≤ c.toNat ∧ c.toNat ≤ 57 := by
  unfold isDig
  rw [Bool.and_eq_true, decide_eq_true_eq, decide_eq_true_eq, Char.le_def, Char.le_def]
  exact and_congr Iff.rfl Iff.rfl

theorem isDig_ne_of_toNat {c d : Char} (h : isDig c = true)
    (hd : d.toNat < 48 ∨ 57 < d.toNat) : c ≠ d := by
  intro he
  subst he
  rcases isDig_iff_toNat.mp h with ⟨h1, h2⟩
  omega

theorem isDig_not_space {c : Char} (h : isDig c = true) : isJsSpace c = false := by
  cases hsp : isJsSpace c with
  | false => rfl
  | true =>
    exfalso
    unfold isJsSpace at hsp
    simp only [Bool.or_eq_true, decide_eq_true_eq] at hsp
    rcases hsp with ((((((h3 | h3) | h3) | h3) | h3) | h3) | h3) | h3 <;>
      subst h3 <;> exact absurd h (by decide)

theorem timeKeep_not_space {c : Char} (h : timeKeep c = true) : isJsSpace c = false := by
  unfold timeKeep at h
  simp only [Bool.or_eq_true, decide_eq_true_eq] at h
  rcases h with (h | h) | h
  · exact isDig_not_space h
  · subst h; rfl
  · subst h; rfl

theorem timeKeep_ne_comma {c : Char} (h : timeKeep c = true) : c ≠ ',' := by
  unfold timeKeep at h
  simp only [Bool.or_eq_true, decide_eq_true_eq] at h
  rcases h with (h | h) | h
  · exact isDig_ne_of_toNat h (by decide)
  · subst h; decide
  · subst h; decide

theorem timeKeep_ne_minus {c : Char} (h : timeKeep c = true) : c ≠ '-' := by
  unfold timeKeep at h
  simp only [Bool.or_eq_true, decide_eq_true_eq] at h
  rcases h with (h | h) | h
  · exact isDig_ne_of_toNat h (by decide)
  · subst h; decide
  · subst h; decide

theorem timeKeep_ne_plus {c : Char} (h : timeKeep c = true) : c ≠ '+' := by
  unfold timeKeep at h
  simp only [Bool.or_eq_true, decide_eq_true_eq] at h
  rcases h with (h | h) | h
  · exact isDig_ne_of_toNat h (by decide)
  · subst h; decide
  · subst h; decide

/-! ## Toolbox: list primitives -/

theorem dropWhile_eq_self_of {p : Char → Bool} {l : List Char}
    (h : ∀ c ∈ l, p c = false) : l.dropWhile p = l := by
  cases l with
  | nil => rfl
  | cons c rest =>
    rw [List.dropWhile_cons_of_neg]
    simp [h c (List.mem_cons_self c rest)]

theorem jsTrim_eq_self {l : List Char} (h : ∀ c ∈ l, isJsSpace c = false) :
    jsTrim l = l := by
  unfold jsTrim
  rw [dropWhile_eq_self_of h, dropWhile_eq_self_of (fun c hc => h c (by
    simpa using hc)), List.reverse_reverse]

theorem replaceFirst_eq_self {l : List Char} {a b : Char}
    (h : ∀ c ∈ l, c ≠ a) : replaceFirst l a b = l := by
  induction l with
  | nil => rfl
  | cons c rest ih =>
    unfold replaceFirst
    rw [if_neg (h c (List.mem_cons_self c rest)), ih (fun x hx => h x (List.mem_cons_of_mem c hx))]

theorem containsChar_eq_false_iff {l : List Char} {c : Char} :
    containsChar l c = false ↔ ∀ x ∈ l, x ≠ c := by
  unfold containsChar
  simp

/-! ## Toolbox: `splitChar` -/

theorem splitCharAux_nil (sep : Char) (acc : List Char) :
    splitCharAux sep [] acc = [acc.reverse] := rfl

theorem splitCharAux_cons_sep (sep : Char) (rest acc : List Char) :
    splitCharAux sep (sep :: rest) acc = acc.reverse :: splitCharAux sep rest [] := by
  conv_lhs => unfold splitCharAux
  rw [if_pos rfl]

theorem splitCharAux_cons_ne {sep c : Char} (rest acc : List Char) (h : c ≠ sep) :
    splitCharAux sep (c :: rest) acc = splitCharAux sep rest (c :: acc) := by
  conv_lhs => unfold splitCharAux
  rw [if_neg h]

theorem splitCharAux_no_sep {sep : Char} {xs : List Char} (acc : List Char)
    (h : ∀ c ∈ xs, c ≠ sep) : splitCharAux sep xs acc = [acc.reverse ++ xs] := by
  induction xs generalizing acc with
  | nil => simp [splitCharAux_nil]
  | cons c rest ih =>
    rw [splitCharAux_cons_ne rest acc (h c (List.mem_cons_self c rest)),
      ih (c :: acc) (fun x hx => h x (List.mem_cons_of_mem c hx))]
    simp

theorem splitCharAux_append_sep {sep : Char} {xs : List Char} (ys acc : List Char)
    (h : ∀ c ∈ xs, c ≠ sep) :
    splitCharAux sep (xs ++ sep :: ys) acc =
      (acc.reverse ++ xs) :: splitCharAux sep ys [] := by
  induction xs generalizing acc with
  | nil =>
    simp only [List.nil_append, List.append_nil]
    rw [splitCharAux_cons_sep]
  | cons c rest ih =>
    simp only [List.cons_append]
    rw [splitCharAux_cons_ne _ acc (h c (List.mem_cons_self c rest)),
      ih (c :: acc) (fun x hx => h x (List.mem_cons_of_mem c hx))]
    simp

theorem splitChar_no_sep {sep : Char} {xs : List Char} (h : ∀ c ∈ xs, c ≠ sep) :
    splitChar xs sep = [xs] := by
  unfold splitChar
  rw [splitCharAux_no_sep [] h]
  rfl

theorem splitChar_append_sep {sep : Char} {xs : List Char} (ys : List Char)
    (h : ∀ c ∈ xs, c ≠ sep) :
    splitChar (xs ++ sep :: ys) sep = xs :: splitChar ys sep := by
  unfold splitChar
  rw [splitCharAux_append_sep ys [] h]
  rfl

theorem splitChar_contains_of_two {sep : Char} {l : List Char} {p q : List Char}
    {rest : List (List Char)} (h : splitChar l sep = p :: q :: rest) :
    containsChar l sep = true := by
  cases hc : containsChar l sep with
  | true => rfl
  | false =>
    rw [splitChar_no_sep (containsChar_eq_false_iff.mp hc)] at h
    simp at h

theorem splitCharAux_chars {sep : Char} :
    ∀ (l acc p : List Char), p ∈ splitCharAux sep l acc → ∀ c ∈ p, c ∈ acc ∨ c ∈ l := by
  intro l
  induction l with
  | nil =>
    intro acc p hp c hc
    rw [splitCharAux_nil] at hp
    simp at hp
    subst hp
    exact Or.inl (by simpa using hc)
  | cons x rest ih =>
    intro acc p hp c hc
    by_cases hx : x = sep
    · subst hx
      rw [splitCharAux_cons_sep] at hp
      rcases List.mem_cons.mp hp with h1 | h1
      · subst h1
        exact Or.inl (by simpa using hc)
      · rcases ih [] p h1 c hc with h2 | h2
        · simp at h2
        · exact Or.inr (List.mem_cons_of_mem _ h2)
    · rw [splitCharAux_cons_ne rest acc hx] at hp
      rcases ih (x :: acc) p hp c hc with h2 | h2
      · rcases List.mem_cons.mp h2 with h3 | h3
        · exact Or.inr (h3 ▸ List.mem_cons_self x rest)
        · exact Or.inl h3
      · exact Or.inr (List.mem_cons_of_mem _ h2)

theorem splitChar_chars {l : List Char} {sep : Char} {p : List Char}
    (hp : p ∈ splitChar l sep) {c : Char} (hc : c ∈ p) : c ∈ l := by
  rcases splitCharAux_chars l [] p hp c hc with h | h
  · simp at h
  · exact h

/-! ## Toolbox: decimal digit strings -/

theorem natDigitsAux_irrel (n : Nat) : ∀ f1 f2, n < f1 → n < f2 →
    natDigitsAux f1 n = natDigitsAux f2 n := by
  induction n using Nat.strong_induction_on with
  | _ n ih =>
    intro f1 f2 h1 h2
    match f1, f2 with
    | g1 + 1, g2 + 1 =>
      show natDigitsAux (g1 + 1) n = natDigitsAux (g2 + 1) n
      by_cases h10 : n < 10
      · simp [natDigitsAux, h10]
      · simp only [natDigitsAux, h10, if_false]
        have hd : n / 10 < n := Nat.div_lt_self (by omega) (by omega)
        rw [ih (n / 10) hd g1 g2 (by omega) (by omega)]

/-- The defining recurrence of `natDigits`, fuel eliminated. -/
theorem natDigits_eq (n : Nat) :
    natDigits n = if n < 10 then [Char.ofNat (48 + n)]
      else natDigits (n / 10) ++ [Char.ofNat (48 + n % 10)] := by
  show natDigitsAux (n + 1) n = _
  by_cases h10 : n < 10
  · simp [natDigitsAux, h10]
  · simp only [natDigitsAux, h10, if_false]
    have hd : n / 10 < n := Nat.div_lt_self (by omega) (by omega)
    rw [natDigitsAux_irrel (n / 10) n (n / 10 + 1) hd (Nat.lt_succ_self _)]
    rfl

theorem toNat_ofNat_small {m : Nat} (h : m < 0xd800) : (Char.ofNat m).toNat = m := by
  have : m.isValidChar := Or.inl h
  simp [Char.ofNat, this, Char.toNat, Char.ofNatAux, UInt32.toNat, BitVec.toNat_ofNatLt]

theorem isDig_digitChar {d : Nat} (h : d < 10) : isDig (Char.ofNat (48 + d)) = true := by
  rw [isDig_iff_toNat, toNat_ofNat_small (by omega)]
  omega

theorem natDigits_all_dig (n : Nat) : ∀ c ∈ natDigits n, isDig c = true := by
  induction n using Nat.strong_induction_on with
  | _ n ih =>
    intro c hc
    rw [natDigits_eq] at hc
    by_cases h10 : n < 10
    · rw [if_pos h10] at hc
      simp at hc
      subst hc
      exact isDig_digitChar h10
    · rw [if_neg h10] at hc
      rcases List.mem_append.mp hc with h1 | h1
      · exact ih (n / 10) (Nat.div_lt_self (by omega) (by omega)) c h1
      · simp at h1
        subst h1
        exact isDig_digitChar (Nat.mod_lt n (by omega))

theorem natDigits_ne_nil (n : Nat) : natDigits n ≠ [] := by
  rw [natDigits_eq]
  by_cases h10 : n < 10
  · simp [h10]
  · simp [h10]

theorem natDigits_length_le {n k : Nat} (hk : 1 ≤ k) (h : n < 10 ^ k) :
    (natDigits n).length ≤ k := by
  induction k generalizing n with
  | zero => omega
  | succ k ihk =>
    rw [natDigits_eq]
    by_cases h10 : n < 10
    · simp [h10]
    · rw [if_neg h10]
      have hk1 : 1 ≤ k := by
        by_contra hk0
        have : k = 0 := by omega
        subst this
        simp at h
        omega
      have : n / 10 < 10 ^ k := by
        rw [Nat.div_lt_iff_lt_mul (by omega)]
        calc n < 10 ^ (k + 1) := h
          _ = 10 ^ k * 10 := by ring
      simp only [List.length_append, List.length_cons, List.length_nil]
      have := ihk hk1 this
      omega

theorem natDigits_length_ge {n k : Nat} (h : 10 ^ k ≤ n) :
    k + 1 ≤ (natDigits n).length := by
  induction k generalizing n with
  | zero =>
    have := natDigits_ne_nil n
    cases hn : natDigits n with
    | nil => exact absurd hn this
    | cons a l => simp
  | succ k ihk =>
    rw [natDigits_eq, if_neg (by
      have : 10 ^ (k + 1) ≥ 10 := by
        calc 10 = 10 ^ 1 := (pow_one 10).symm
        _ ≤ 10 ^ (k + 1) := Nat.pow_le_pow_right (by omega) (by omega)
      omega)]
    have : 10 ^ k ≤ n / 10 := by
      rw [Nat.le_div_iff_mul_le (by omega)]
      calc 10 ^ k * 10 = 10 ^ (k + 1) := by ring
        _ ≤ n := h
    have := ihk this
    simp only [List.length_append, List.length_cons, List.length_nil]
    omega

theorem digitsToNat_cons (c : Char) (l : List Char) :
    digitsToNat (c :: l) = digitsToNat l + (c.toNat - 48) * 10 ^ l.length := by
  unfold digitsToNat
  rw [List.foldl_cons]
  generalize (c.toNat - 48) = v
  simp only [Nat.mul_zero, Nat.zero_add]
  induction l generalizing v with
  | nil => simp
  | cons d rest ih =>
    rw [List.foldl_cons, List.foldl_cons, ih, ih (10 * 0 + (d.toNat - 48))]
    simp only [List.length_cons]
    ring

theorem digitsToNat_append (xs ys : List Char) :
    digitsToNat (xs ++ ys) = digitsToNat xs * 10 ^ ys.length + digitsToNat ys := by
  induction xs with
  | nil => simp [digitsToNat]
  | cons c rest ih =>
    rw [List.cons_append, digitsToNat_cons, digitsToNat_cons, ih]
    simp only [List.length_append]
    ring

theorem digitsToNat_natDigits (n : Nat) : digitsToNat (natDigits n) = n := by
  induction n using Nat.strong_induction_on with
  | _ n ih =>
    rw [natDigits_eq]
    by_cases h10 : n < 10
    · rw [if_pos h10, digitsToNat_cons]
      simp [digitsToNat, toNat_ofNat_small (by omega : 48 + n < 0xd800)]
    · rw [if_neg h10, digitsToNat_append,
        ih (n / 10) (Nat.div_lt_self (by omega) (by omega))]
      have hm : (Char.ofNat (48 + n % 10)).toNat = 48 + n % 10 :=
        toNat_ofNat_small (by omega)
      simp [digitsToNat_cons, digitsToNat, hm]
      omega

theorem digitsToNat_replicate_zero (k : Nat) (l : List Char) :
    digitsToNat (List.replicate k '0' ++ l) = digitsToNat l := by
  rw [digitsToNat_append]
  have : digitsToNat (List.replicate k '0') = 0 := by
    induction k with
    | zero => rfl
    | succ k ihk =>
      rw [List.replicate_succ, digitsToNat_cons, ihk]
      have h0 : '0'.toNat - 48 = 0 := rfl
      simp [h0]
  rw [this]
  simp

/-- `padStart` of a digit string parses back to its value. -/
theorem digitsToNat_padStart (w : Nat) (l : List Char) :
    digitsToNat (padStartChars w '0' l) = digitsToNat l := by
  unfold padStartChars
  exact digitsToNat_replicate_zero _ l

theorem padStartChars_length (w : Nat) (pad : Char) (l : List Char) :
    (padStartChars w pad l).length = max w l.length := by
  unfold padStartChars
  simp [List.length_replicate]
  omega

theorem padStartChars_mem {w : Nat} {pad c : Char} {l : List Char}
    (h : c ∈ padStartChars w pad l) : c = pad ∨ c ∈ l := by
  unfold padStartChars at h
  rcases List.mem_append.mp h with h1 | h1
  · exact Or.inl (List.eq_of_mem_replicate h1)
  · exact Or.inr h1

theorem padEndChars_mem {w : Nat} {pad c : Char} {l : List Char}
    (h : c ∈ padEndChars w pad l) : c = pad ∨ c ∈ l := by
  unfold padEndChars at h
  rcases List.mem_append.mp h with h1 | h1
  · exact Or.inr h1
  · exact Or.inl (List.eq_of_mem_replicate h1)

/-! ## Toolbox: `jsParseIntOr0` on digit strings -/

theorem splitSign_no_sign {l : List Char}
    (h : ∀ c ∈ l, c ≠ '-' ∧ c ≠ '+') : splitSign l = (1, l) := by
  cases l with
  | nil => rfl
  | cons c rest =>
    rcases h c (List.mem_cons_self c rest) with ⟨h1, h2⟩
    show (if c = '-' then ((-1 : Int), rest)
      else if c = '+' then ((1 : Int), rest) else (1, c :: rest)) = (1, c :: rest)
    rw [if_neg h1, if_neg h2]

theorem jsParseIntOr0_digits {l : List Char} (h : ∀ c ∈ l, isDig c = true)
    (hne : l ≠ []) : jsParseIntOr0 l = (digitsToNat l : Int) := by
  simp only [jsParseIntOr0]
  rw [dropWhile_eq_self_of (fun c hc => isDig_not_space (h c hc)),
    splitSign_no_sign (fun c hc => ⟨isDig_ne_of_toNat (h c hc) (by decide),
      isDig_ne_of_toNat (h c hc) (by decide)⟩)]
  simp only [digitRun]
  rw [List.takeWhile_eq_self_iff.mpr h]
  simp [hne]

/-- `jsParseIntOr0` of the zero-padded digits of `n` is `n` itself. -/
theorem jsParseIntOr0_padStart_natDigits (w : Nat) (n : Nat) :
    jsParseIntOr0 (padStartChars w '0' (natDigits n)) = (n : Int) := by
  rw [jsParseIntOr0_digits, digitsToNat_padStart, digitsToNat_natDigits]
  · intro c hc
    rcases padStartChars_mem hc with h1 | h1
    · subst h1; decide
    · exact natDigits_all_dig n c h1
  · unfold padStartChars
    intro habs
    rcases List.append_eq_nil.mp habs with ⟨_, h2⟩
    exact natDigits_ne_nil n h2

/-- Nonnegativity: with no sign character in sight, `parseInt` cannot be
negative. -/
theorem jsParseIntOr0_nonneg {l : List Char}
    (h : ∀ c ∈ l, timeKeep c = true) : 0 ≤ jsParseIntOr0 l := by
  unfold jsParseIntOr0
  have hsub : ∀ c ∈ l.dropWhile isJsSpace, timeKeep c = true := fun c hc =>
    h c ((List.dropWhile_suffix isJsSpace).mem hc)
  rw [splitSign_no_sign (fun c hc => ⟨timeKeep_ne_minus (hsub c hc),
    timeKeep_ne_plus (hsub c hc)⟩)]
  by_cases hd : digitRun (l.dropWhile isJsSpace) = []
  · simp [hd]
  · simp [hd]

/-! ## Toolbox: `cleanTs` and nonnegativity of the parsed total -/

theorem cleanTs_chars {l : List Char} : ∀ c ∈ cleanTs l, timeKeep c = true := by
  intro c hc
  exact List.of_mem_filter hc

theorem cleanTs_idem (l : List Char) : cleanTs (cleanTs l) = cleanTs l := by
  have hch := @cleanTs_chars l
  generalize hm : cleanTs l = m
  rw [hm] at hch
  unfold cleanTs
  rw [jsTrim_eq_self (fun c hc => timeKeep_not_space (hch c hc)),
    replaceFirst_eq_self (fun c hc => timeKeep_ne_comma (hch c hc)),
    List.filter_eq_self.mpr hch]

theorem DecNum.val_nonneg_of_num {a : DecNum} (h : 0 ≤ a.num) : 0 ≤ a.val := by
  rw [DecNum.val]
  positivity

theorem applyExp_num_nonneg {mant : Int} (den : ℕ+) (e : Int) (h : 0 ≤ mant) :
    0 ≤ (applyExp mant den e).num := by
  unfold applyExp
  by_cases he : 0 ≤ e
  · rw [if_pos he]
    exact mul_nonneg h (by positivity)
  · rw [if_neg he]
    exact h

theorem jsParseFloat_nonneg {l : List Char} (h : ∀ c ∈ l, isDig c = true ∨ c = '.')
    {q : DecNum} (hq : jsParseFloat l = some q) : 0 ≤ q.val := by
  have hdrop : l.dropWhile isJsSpace = l := by
    apply dropWhile_eq_self_of
    intro c hc
    rcases h c hc with h1 | h1
    · exact isDig_not_space h1
    · subst h1; rfl
  have hsign : splitSign l = (1, l) := by
    apply splitSign_no_sign
    intro c hc
    rcases h c hc with h1 | h1
    · exact ⟨isDig_ne_of_toNat h1 (by decide), isDig_ne_of_toNat h1 (by decide)⟩
    · subst h1; exact ⟨by decide, by decide⟩
  unfold jsParseFloat at hq
  rw [hdrop, hsign] at hq
  simp only at hq
  split at hq
  · exact absurd hq (by simp)
  · rw [Option.some_inj] at hq
    subst hq
    exact DecNum.val_nonneg_of_num (applyExp_num_nonneg _ _ (by positivity))

theorem val_totalOfHMS (h m s ms : Int) :
    (totalOfHMS h m s ms).val = (h : ℚ) * 3600 + m * 60 + s + ms / 1000 := by
  unfold totalOfHMS
  rw [DecNum.val_add, DecNum.val_ofInt, DecNum.val_divP, DecNum.val_ofInt]
  rw [show (((1000 : ℕ+) : Nat) : ℚ) = 1000 from rfl]
  push_cast
  ring

theorem totalOfHMS_val_nonneg {h m s ms : Int} (hh : 0 ≤ h) (hm : 0 ≤ m)
    (hs : 0 ≤ s) (hms : 0 ≤ ms) : 0 ≤ (totalOfHMS h m s ms).val := by
  rw [val_totalOfHMS]
  have hh' : (0 : ℚ) ≤ h := by exact_mod_cast hh
  have hm' : (0 : ℚ) ≤ m := by exact_mod_cast hm
  have hs' : (0 : ℚ) ≤ s := by exact_mod_cast hs
  have hms' : (0 : ℚ) ≤ ms := by exact_mod_cast hms
  positivity

theorem headD_chars {ls : List (List Char)} {c : Char} (hc : c ∈ ls.headD []) :
    ∃ p ∈ ls, c ∈ p := by
  cases ls with
  | nil => simp at hc
  | cons p rest => exact ⟨p, List.mem_cons_self p rest, hc⟩

theorem getD_chars {ls : List (List Char)} {i : Nat} {c : Char}
    (hc : c ∈ ls.getD i []) : ∃ p ∈ ls, c ∈ p := by
  unfold List.getD at hc
  cases hg : ls.get? i with
  | none => rw [hg] at hc; simp at hc
  | some p =>
    rw [hg] at hc
    exact ⟨p, List.get?_mem hg, hc⟩

/-- The millisecond-style argument `padEnd(3, '0')(take 3 p)` keeps the
character class of `p`. -/
theorem msArg_chars {p : List Char} (hp : ∀ c ∈ p, timeKeep c = true) :
    ∀ c ∈ padEndChars 3 '0' (p.take 3), timeKeep c = true := by
  intro c hc
  rcases padEndChars_mem hc with h1 | h1
  · subst h1; decide
  · exact hp c (List.mem_of_mem_take h1)

theorem partsHMS_nonneg (parts : List (List Char))
    (h : ∀ p ∈ parts, ∀ c ∈ p, timeKeep c = true) :
    0 ≤ (partsHMS parts).1 ∧ 0 ≤ (partsHMS parts).2.1 ∧
      0 ≤ (partsHMS parts).2.2.1 ∧ 0 ≤ (partsHMS parts).2.2.2 := by
  have hsub : ∀ (p : List Char), (∀ c ∈ p, timeKeep c = true) →
      ∀ q ∈ splitChar p '.', ∀ c ∈ q, timeKeep c = true :=
    fun p hp q hq c hc => hp c (splitChar_chars hq hc)
  match parts with
  | [] => exact ⟨le_refl 0, le_refl 0, le_refl 0, le_refl 0⟩
  | [p0] => exact ⟨le_refl 0, le_refl 0, le_refl 0, le_refl 0⟩
  | [p0, p1] =>
    have h0 := h p0 (by simp)
    have h1 := h p1 (by simp)
    simp only [partsHMS]
    by_cases hdot : containsChar p1 '.' = true
    · rw [if_pos hdot]
      refine ⟨le_refl 0, jsParseIntOr0_nonneg h0, jsParseIntOr0_nonneg ?_,
        jsParseIntOr0_nonneg ?_⟩
      · intro c hc
        rcases headD_chars hc with ⟨q, hq, hcq⟩
        exact hsub p1 h1 q hq c hcq
      · intro c hc
        rcases padEndChars_mem hc with h2 | h2
        · subst h2; decide
        · rcases getD_chars (List.mem_of_mem_take h2) with ⟨q, hq, hcq⟩
          exact hsub p1 h1 q hq c hcq
    · rw [if_neg hdot]
      exact ⟨le_refl 0, jsParseIntOr0_nonneg h0, jsParseIntOr0_nonneg h1, le_refl 0⟩
  | [p0, p1, p2] =>
    have h0 := h p0 (by simp)
    have h1 := h p1 (by simp)
    have h2 := h p2 (by simp)
    simp only [partsHMS]
    by_cases hdot : containsChar p2 '.' = true
    · rw [if_pos hdot]
      refine ⟨jsParseIntOr0_nonneg h0, jsParseIntOr0_nonneg h1,
        jsParseIntOr0_nonneg ?_, jsParseIntOr0_nonneg ?_⟩
      · intro c hc
        rcases headD_chars hc with ⟨q, hq, hcq⟩
        exact hsub p2 h2 q hq c hcq
      · intro c hc
        rcases padEndChars_mem hc with h3 | h3
        · subst h3; decide
        · rcases getD_chars (List.mem_of_mem_take h3) with ⟨q, hq, hcq⟩
          exact hsub p2 h2 q hq c hcq
    · rw [if_neg hdot]
      by_cases hlen : p2.length = 3 ∨ jsParseIntOr0 p2 > 59
      · rw [if_pos hlen]
        exact ⟨le_refl 0, jsParseIntOr0_nonneg h0, jsParseIntOr0_nonneg h1,
          jsParseIntOr0_nonneg h2⟩
      · rw [if_neg hlen]
        exact ⟨jsParseIntOr0_nonneg h0, jsParseIntOr0_nonneg h1,
          jsParseIntOr0_nonneg h2, le_refl 0⟩
  | p0 :: p1 :: p2 :: p3 :: rest =>
    match rest with
    | [] =>
      have h0 := h p0 (by simp)
      have h1 := h p1 (by simp)
      have h2 := h p2 (by simp)
      have h3 := h p3 (by simp)
      simp only [partsHMS]
      exact ⟨jsParseIntOr0_nonneg h0, jsParseIntOr0_nonneg h1,
        jsParseIntOr0_nonneg h2, jsParseIntOr0_nonneg (msArg_chars h3)⟩
    | _ :: _ => exact ⟨le_refl 0, le_refl 0, le_refl 0, le_refl 0⟩

theorem digitsDotsTest_chars {l : List Char} (h : digitsDotsTest l = true) :
    ∀ c ∈ l, isDig c = true ∨ c = '.' := by
  unfold digitsDotsTest at h
  rcases Bool.and_eq_true _ _ |>.mp h with ⟨_, h2⟩
  intro c hc
  have := List.all_eq_true.mp h2 c hc
  rcases Bool.or_eq_true _ _ |>.mp this with h3 | h3
  · exact Or.inl h3
  · exact Or.inr (by simpa using h3)

theorem normTotalClean_nonneg (clean : List Char)
    (hch : ∀ c ∈ clean, timeKeep c = true) : 0 ≤ (normTotalClean clean).val := by
  unfold normTotalClean
  cases hg : (if !containsChar clean ':' && digitsDotsTest clean
      then jsParseFloat clean else none) with
  | some t =>
    simp only
    by_cases hc : (!containsChar clean ':' && digitsDotsTest clean) = true
    · rw [if_pos hc] at hg
      exact jsParseFloat_nonneg
        (digitsDotsTest_chars (Bool.and_eq_true _ _ |>.mp hc).2) hg
    · rw [if_neg hc] at hg
      exact absurd hg (by simp)
  | none =>
    simp only
    have hp : ∀ p ∈ splitChar clean ':', ∀ c ∈ p, timeKeep c = true :=
      fun p hq c hc => hch c (splitChar_chars hq hc)
    rcases partsHMS_nonneg (splitChar clean ':') hp with ⟨ha, hb, hc2, hd⟩
    exact totalOfHMS_val_nonneg ha hb hc2 hd

theorem normTotalBody_nonneg (l : List Char) : 0 ≤ (normTotalBody l).val :=
  normTotalClean_nonneg (cleanTs l) cleanTs_chars

/-! ## Toolbox: the rendered clock fields -/

/-- The four integers `normalizeTimestamp` renders
(`finalH`, `finalM`, `finalS`, `finalMs`). -/
def normParts (ts : String) : Int × Int × Int × Int :=
  let t := if ts = "" then DecNum.ofNat 0 else normTotalBody ts.data
  ((t.divP 3600).floor, (((t.modP 3600).divP 60).floor, ((t.modP 60).floor,
    ((t.modP 1).mulI 1000).roundJs)))

theorem normalizeTimestamp_eq (ts : String) :
    normalizeTimestamp ts = String.mk (renderClock (normParts ts).1
      (normParts ts).2.1 (normParts ts).2.2.1 (normParts ts).2.2.2) := by
  unfold normalizeTimestamp normParts
  by_cases h : ts = ""
  · simp only [if_pos h]
    decide
  · simp only [if_neg h]
    rfl

theorem floor_div_eq_of (x n : ℚ) (k : Int) (r : ℚ) (hn : 0 < n)
    (hx : x = n * k + r) (h0 : 0 ≤ r) (hr : r < n) : ⌊x / n⌋ = k := by
  have hne := ne_of_gt hn
  have hdiv : x / n = r / n + k := by
    rw [hx]
    field_simp
    ring
  rw [hdiv, Int.floor_add_int, Int.floor_eq_zero_iff.mpr, zero_add]
  rw [Set.mem_Ico]
  exact ⟨div_nonneg h0 (le_of_lt hn), (div_lt_one hn).mpr hr⟩

theorem pnat3600_q : (((3600 : ℕ+) : Nat) : ℚ) = 3600 := by norm_num
theorem pnat60_q : (((60 : ℕ+) : Nat) : ℚ) = 60 := by norm_num
theorem pnat1_q : (((1 : ℕ+) : Nat) : ℚ) = 1 := by norm_num
theorem pnat1000_q : (((1000 : ℕ+) : Nat) : ℚ) = 1000 := by norm_num

/-- Bounds on the rendered fields for any nonnegative total: minutes and
seconds land in `[0, 59]`, milliseconds in `[0, 1000]`, hours in `[0, ∞)`. -/
theorem clockParts_bounds (t : DecNum) (ht : 0 ≤ t.val) :
    0 ≤ (t.divP 3600).floor ∧
      (0 ≤ ((t.modP 3600).divP 60).floor ∧ ((t.modP 3600).divP 60).floor ≤ 59) ∧
      (0 ≤ (t.modP 60).floor ∧ (t.modP 60).floor ≤ 59) ∧
      (0 ≤ ((t.modP 1).mulI 1000).roundJs ∧ ((t.modP 1).mulI 1000).roundJs ≤ 1000) := by
  have h3600 := t.val_modP_nonneg 3600 ht
  have h3600' := t.val_modP_lt 3600 ht
  have h60 := t.val_modP_nonneg 60 ht
  have h60' := t.val_modP_lt 60 ht
  have h1 := t.val_modP_nonneg 1 ht
  have h1' := t.val_modP_lt 1 ht
  rw [pnat3600_q] at h3600'
  rw [pnat60_q] at h60'
  rw [pnat1_q] at h1'
  refine ⟨?_, ⟨?_, ?_⟩, ⟨?_, ?_⟩, ?_, ?_⟩
  · rw [DecNum.floor_eq, DecNum.val_divP]
    exact Int.le_floor.mpr (by
      push_cast
      positivity)
  · rw [DecNum.floor_eq, DecNum.val_divP]
    exact Int.le_floor.mpr (by
      rw [pnat60_q]
      push_cast
      positivity)
  · rw [DecNum.floor_eq, DecNum.val_divP, pnat60_q]
    have hq : (t.modP 3600).val / 60 < ((60 : Int) : ℚ) := by
      rw [div_lt_iff₀ (by norm_num)]
      push_cast
      linarith
    have h := Int.floor_lt.mpr hq
    omega
  · rw [DecNum.floor_eq]
    exact Int.le_floor.mpr (by push_cast; exact h60)
  · rw [DecNum.floor_eq]
    have h := Int.floor_lt.mpr (show (t.modP 60).val < ((60 : Int) : ℚ) by push_cast; linarith)
    omega
  · rw [DecNum.roundJs_eq, DecNum.val_mulI]
    refine Int.le_floor.mpr ?_
    push_cast
    nlinarith [h1]
  · rw [DecNum.roundJs_eq, DecNum.val_mulI]
    have h := Int.floor_lt.mpr (show (t.modP 1).val * (((1000 : Int)) : ℚ) + 1 / 2 <
        ((1001 : Int) : ℚ) by
      push_cast
      nlinarith [h1'])
    omega

/-- When the total is an explicit reduced decomposition, the rendered fields
recover exactly its components. -/
theorem clockParts_of_decomposed (t : DecNum) (H M S MS : Int)
    (h0H : 0 ≤ H) (h0M : 0 ≤ M) (hM : M ≤ 59) (h0S : 0 ≤ S) (hS : S ≤ 59)
    (h0MS : 0 ≤ MS) (hMS : MS ≤ 999)
    (hval : t.val = 3600 * H + 60 * M + S + MS / 1000) :
    (t.divP 3600).floor = H ∧ ((t.modP 3600).divP 60).floor = M ∧
      (t.modP 60).floor = S ∧ ((t.modP 1).mulI 1000).roundJs = MS := by
  have hH' : (0 : ℚ) ≤ H := by exact_mod_cast h0H
  have hM0 : (0 : ℚ) ≤ M := by exact_mod_cast h0M
  have hM' : (M : ℚ) ≤ 59 := by exact_mod_cast hM
  have hS0 : (0 : ℚ) ≤ S := by exact_mod_cast h0S
  have hS' : (S : ℚ) ≤ 59 := by exact_mod_cast hS
  have hMS0 : (0 : ℚ) ≤ MS := by exact_mod_cast h0MS
  have hMS' : (MS : ℚ) ≤ 999 := by exact_mod_cast hMS
  have hfr0 : (0 : ℚ) ≤ (MS : ℚ) / 1000 := by positivity
  have hfr1 : ((MS : ℚ)) / 1000 < 1 := by
    rw [div_lt_one (by norm_num)]
    linarith
  have ht : 0 ≤ t.val := by rw [hval]; linarith
  have hfl1 : ⌊t.val / 3600⌋ = H :=
    floor_div_eq_of t.val 3600 H (60 * (M : ℚ) + S + (MS : ℚ) / 1000) (by norm_num)
      (by rw [hval]; ring) (by linarith) (by linarith)
  have hfl60 : ⌊t.val / 60⌋ = 60 * H + M :=
    floor_div_eq_of t.val 60 (60 * H + M) ((S : ℚ) + (MS : ℚ) / 1000) (by norm_num)
      (by rw [hval]; push_cast; ring) (by linarith) (by linarith)
  have hflt : ⌊t.val⌋ = 3600 * H + 60 * M + S := by
    have : t.val = ((3600 * H + 60 * M + S : Int) : ℚ) + (MS : ℚ) / 1000 := by
      rw [hval]; push_cast; ring
    rw [this, add_comm, Int.floor_add_int, Int.floor_eq_zero_iff.mpr
      (by rw [Set.mem_Ico]; exact ⟨hfr0, hfr1⟩), zero_add]
  refine ⟨?_, ?_, ?_, ?_⟩
  · rw [DecNum.floor_eq, DecNum.val_divP, pnat3600_q]
    exact hfl1
  · rw [DecNum.floor_eq, DecNum.val_divP, DecNum.val_modP _ _ ht, pnat3600_q, pnat60_q]
    have harg : t.val - 3600 * (⌊t.val / 3600⌋ : ℚ) = 60 * M + (S + MS / 1000) := by
      rw [hfl1, hval]
      push_cast
      ring
    rw [harg]
    exact floor_div_eq_of _ 60 M ((S : ℚ) + (MS : ℚ) / 1000) (by norm_num)
      (by push_cast; ring) (by linarith) (by linarith)
  · rw [DecNum.floor_eq, DecNum.val_modP _ _ ht, pnat60_q]
    have harg : t.val - 60 * (⌊t.val / 60⌋ : ℚ) = ((S : Int) : ℚ) + (MS : ℚ) / 1000 := by
      rw [hfl60, hval]
      push_cast
      ring
    rw [harg, add_comm, Int.floor_add_int, Int.floor_eq_zero_iff.mpr
      (by rw [Set.mem_Ico]; exact ⟨hfr0, hfr1⟩), zero_add]
  · rw [DecNum.roundJs_eq, DecNum.val_mulI, DecNum.val_modP _ _ ht, pnat1_q]
    have harg : t.val - 1 * (⌊t.val / 1⌋ : ℚ) = (MS : ℚ) / 1000 := by
      rw [div_one, hflt, hval]
      push_cast
      ring
    rw [harg]
    have : (MS : ℚ) / 1000 * ((1000 : Int) : ℚ) + 1 / 2 = (MS : ℚ) + 1 / 2 := by
      push_cast
      field_simp
    rw [this]
    have hhalf : ((MS : ℚ)) + 1 / 2 = ((MS : Int) : ℚ) + 1 / 2 := by push_cast; ring
    rw [hhalf, add_comm, Int.floor_add_int, Int.floor_eq_zero_iff.mpr
      (by rw [Set.mem_Ico]; constructor <;> norm_num), zero_add]

theorem intDigits_of_nonneg {n : Int} (h : 0 ≤ n) : intDigits n = natDigits n.toNat := by
  unfold intDigits
  rw [if_neg (not_lt.mpr h)]

theorem padNat_all_dig (w m : Nat) :
    ∀ c ∈ padStartChars w '0' (natDigits m), isDig c = true := fun c hc =>
  (padStartChars_mem hc).elim (fun h => by subst h; decide) (natDigits_all_dig m c)

theorem padNat_len_of_le {m w : Nat} (h : (natDigits m).length ≤ w) :
    (padStartChars w '0' (natDigits m)).length = w := by
  rw [padStartChars_length]
  omega

/-- `digitsOnly`: every character is an ASCII digit (used by the spec-side
canonical-shape check). -/
def digitsOnly (l : List Char) : Bool := l.all isDig

/-- Modelled from the spec: "Canonical timestamp string: `HH:MM:SS.mmm`,
zero-padded, always present (2-digit hours/minutes/seconds, 3-digit
milliseconds)" — two colon-separated 2-digit fields, then a 2-digit and a
3-digit field separated by a dot, all digits. -/
def canonicalShape (s : String) : Bool :=
  match splitChar s.data ':' with
  | [hh, mm, rest] =>
    match splitChar rest '.' with
    | [ss, mmm] =>
      hh.length = 2 && mm.length = 2 && ss.length = 2 && mmm.length = 3 &&
        digitsOnly hh && digitsOnly mm && digitsOnly ss && digitsOnly mmm
    | _ => false
  | _ => false

theorem dig_ne_colon {c : Char} (h : isDig c = true) : c ≠ ':' :=
  isDig_ne_of_toNat h (by decide)

theorem dig_ne_dot {c : Char} (h : isDig c = true) : c ≠ '.' :=
  isDig_ne_of_toNat h (by decide)

theorem renderClock_split_colon (H M S MS : Int) (h0H : 0 ≤ H) (h0M : 0 ≤ M)
    (h0S : 0 ≤ S) (h0MS : 0 ≤ MS) :
    splitChar (renderClock H M S MS) ':' =
      [padStartChars 2 '0' (intDigits H), padStartChars 2 '0' (intDigits M),
        padStartChars 2 '0' (intDigits S) ++ '.' :: padStartChars 3 '0' (intDigits MS)] := by
  unfold renderClock
  rw [intDigits_of_nonneg h0H, intDigits_of_nonneg h0M, intDigits_of_nonneg h0S,
    intDigits_of_nonneg h0MS]
  simp only [List.cons_append, List.append_assoc]
  rw [splitChar_append_sep _ (fun c hc => dig_ne_colon (padNat_all_dig 2 H.toNat c hc)),
    splitChar_append_sep _ (fun c hc => dig_ne_colon (padNat_all_dig 2 M.toNat c hc)),
    splitChar_no_sep (fun c hc => by
      rcases List.mem_append.mp hc with h1 | h1
      · exact dig_ne_colon (padNat_all_dig 2 S.toNat c h1)
      · rcases List.mem_cons.mp h1 with h2 | h2
        · subst h2; decide
        · exact dig_ne_colon (padNat_all_dig 3 MS.toNat c h2))]

theorem renderClock_split_dot (S MS : Int) (h0S : 0 ≤ S) (h0MS : 0 ≤ MS) :
    splitChar (padStartChars 2 '0' (intDigits S) ++ '.' ::
        padStartChars 3 '0' (intDigits MS)) '.' =
      [padStartChars 2 '0' (intDigits S), padStartChars 3 '0' (intDigits MS)] := by
  rw [intDigits_of_nonneg h0S, intDigits_of_nonneg h0MS]
  rw [splitChar_append_sep _ (fun c hc => dig_ne_dot (padNat_all_dig 2 S.toNat c hc)),
    splitChar_no_sep (fun c hc => dig_ne_dot (padNat_all_dig 3 MS.toNat c hc))]

theorem digitsOnly_padNat (w m : Nat) : digitsOnly (padStartChars w '0' (natDigits m)) = true := by
  unfold digitsOnly
  exact List.all_eq_true.mpr (padNat_all_dig w m)

/-- The canonical shape holds exactly when the hour field fits in two digits
and the millisecond field in three. -/
theorem canonicalShape_renderClock (H M S MS : Int) (h0H : 0 ≤ H) (h0M : 0 ≤ M)
    (hM : M ≤ 59) (h0S : 0 ≤ S) (hS : S ≤ 59) (h0MS : 0 ≤ MS) (hMS : MS ≤ 1000) :
    canonicalShape (String.mk (renderClock H M S MS)) =
      (decide (H ≤ 99) && decide (MS ≤ 999)) := by
  have hdata : (String.mk (renderClock H M S MS)).data = renderClock H M S MS := rfl
  simp only [canonicalShape, hdata, renderClock_split_colon H M S MS h0H h0M h0S h0MS,
    renderClock_split_dot S MS h0S h0MS]
  have hMlen : (padStartChars 2 '0' (natDigits M.toNat)).length = 2 :=
    padNat_len_of_le (natDigits_length_le (by omega) (by omega : M.toNat < 10 ^ 2))
  have hSlen : (padStartChars 2 '0' (natDigits S.toNat)).length = 2 :=
    padNat_len_of_le (natDigits_length_le (by omega) (by omega : S.toNat < 10 ^ 2))
  simp only [intDigits_of_nonneg h0H, intDigits_of_nonneg h0M, intDigits_of_nonneg h0S,
    intDigits_of_nonneg h0MS]
  by_cases hH : H ≤ 99
  · by_cases hMS' : MS ≤ 999
    · have hHlen : (padStartChars 2 '0' (natDigits H.toNat)).length = 2 :=
        padNat_len_of_le (natDigits_length_le (by omega) (by omega : H.toNat < 10 ^ 2))
      have hMSlen : (padStartChars 3 '0' (natDigits MS.toNat)).length = 3 :=
        padNat_len_of_le (natDigits_length_le (by omega) (by omega : MS.toNat < 10 ^ 3))
      simp [hHlen, hMlen, hSlen, hMSlen, hH, hMS', digitsOnly_padNat]
    · have hMSlen : (padStartChars 3 '0' (natDigits MS.toNat)).length = 4 := by
        rw [padStartChars_length]
        have hge : 3 + 1 ≤ (natDigits MS.toNat).length :=
          natDigits_length_ge (by omega : 10 ^ 3 ≤ MS.toNat)
        have hle : (natDigits MS.toNat).length ≤ 4 :=
          natDigits_length_le (by omega) (by omega : MS.toNat < 10 ^ 4)
        omega
      simp [hMSlen, hMS']
  · have hHlen : 3 ≤ (padStartChars 2 '0' (natDigits H.toNat)).length := by
      rw [padStartChars_length]
      have hge : 2 + 1 ≤ (natDigits H.toNat).length :=
        natDigits_length_ge (by omega : 10 ^ 2 ≤ H.toNat)
      omega
    have hne : (padStartChars 2 '0' (natDigits H.toNat)).length ≠ 2 := by omega
    simp [hne, hH]

/-- `renderClock` in fully right-nested form, for nonnegative fields. -/
theorem renderClock_normal (H M S MS : Int) (h0H : 0 ≤ H) (h0M : 0 ≤ M)
    (h0S : 0 ≤ S) (h0MS : 0 ≤ MS) :
    renderClock H M S MS = padStartChars 2 '0' (natDigits H.toNat) ++ ':' ::
      (padStartChars 2 '0' (natDigits M.toNat) ++ ':' ::
        (padStartChars 2 '0' (natDigits S.toNat) ++ '.' ::
          padStartChars 3 '0' (natDigits MS.toNat))) := by
  unfold renderClock
  rw [intDigits_of_nonneg h0H, intDigits_of_nonneg h0M, intDigits_of_nonneg h0S,
    intDigits_of_nonneg h0MS]
  simp [List.cons_append, List.append_assoc]

theorem timeKeep_of_dig {c : Char} (h : isDig c = true) : timeKeep c = true := by
  unfold timeKeep
  rw [h]
  rfl

/-- Re-normalizing a rendered clock string with in-range fields is the
identity: the core of idempotence. -/
theorem normalizeTimestamp_renderClock (H M S MS : Int)
    (h0H : 0 ≤ H) (h0M : 0 ≤ M) (hM : M ≤ 59) (h0S : 0 ≤ S) (hS : S ≤ 59)
    (h0MS : 0 ≤ MS) (hMS : MS ≤ 999) :
    normalizeTimestamp (String.mk (renderClock H M S MS)) =
      String.mk (renderClock H M S MS) := by
  have hnormal := renderClock_normal H M S MS h0H h0M h0S h0MS
  have hRchars : ∀ c ∈ renderClock H M S MS, timeKeep c = true := by
    intro c hc
    rw [hnormal] at hc
    rcases List.mem_append.mp hc with h1 | h1
    · exact timeKeep_of_dig (padNat_all_dig 2 H.toNat c h1)
    · rcases List.mem_cons.mp h1 with h2 | h2
      · subst h2; decide
      rcases List.mem_append.mp h2 with h3 | h3
      · exact timeKeep_of_dig (padNat_all_dig 2 M.toNat c h3)
      rcases List.mem_cons.mp h3 with h4 | h4
      · subst h4; decide
      rcases List.mem_append.mp h4 with h5 | h5
      · exact timeKeep_of_dig (padNat_all_dig 2 S.toNat c h5)
      rcases List.mem_cons.mp h5 with h6 | h6
      · subst h6; decide
      · exact timeKeep_of_dig (padNat_all_dig 3 MS.toNat c h6)
  have hcolon : ':' ∈ renderClock H M S MS := by
    rw [hnormal]
    simp
  have hRne : renderClock H M S MS ≠ [] := List.ne_nil_of_mem hcolon
  have hmkne : String.mk (renderClock H M S MS) ≠ "" := by
    intro habs
    exact hRne (congrArg String.data habs)
  have hdata : (String.mk (renderClock H M S MS)).data = renderClock H M S MS := rfl
  have hclean : cleanTs (renderClock H M S MS) = renderClock H M S MS := by
    unfold cleanTs
    rw [jsTrim_eq_self (fun c hc => timeKeep_not_space (hRchars c hc)),
      replaceFirst_eq_self (fun c hc => timeKeep_ne_comma (hRchars c hc)),
      List.filter_eq_self.mpr hRchars]
  have hcont : containsChar (renderClock H M S MS) ':' = true := by
    unfold containsChar
    rw [List.any_eq_true]
    exact ⟨':', hcolon, by simp⟩
  have hcontdot : containsChar (padStartChars 2 '0' (intDigits S) ++ '.' ::
      padStartChars 3 '0' (intDigits MS)) '.' = true := by
    unfold containsChar
    rw [List.any_eq_true]
    exact ⟨'.', by simp, by simp⟩
  have hDlen : (padStartChars 3 '0' (natDigits MS.toNat)).length = 3 :=
    padNat_len_of_le (natDigits_length_le (by omega) (by omega : MS.toNat < 10 ^ 3))
  -- the decomposition the parts branch computes
  have hhms : partsHMS (splitChar (renderClock H M S MS) ':') = (H, M, S, MS) := by
    rw [renderClock_split_colon H M S MS h0H h0M h0S h0MS]
    simp only [partsHMS, hcontdot, if_true, renderClock_split_dot S MS h0S h0MS]
    rw [intDigits_of_nonneg h0H, intDigits_of_nonneg h0M, intDigits_of_nonneg h0S,
      intDigits_of_nonneg h0MS]
    simp only [List.headD_cons, List.getD_cons_succ, List.getD_cons_zero]
    have htake : (padStartChars 3 '0' (natDigits MS.toNat)).take 3 =
        padStartChars 3 '0' (natDigits MS.toNat) :=
      List.take_of_length_le (le_of_eq hDlen)
    have hpadE : padEndChars 3 '0' ((padStartChars 3 '0' (natDigits MS.toNat)).take 3) =
        padStartChars 3 '0' (natDigits MS.toNat) := by
      rw [htake]
      unfold padEndChars
      rw [hDlen]
      simp
    rw [hpadE, jsParseIntOr0_padStart_natDigits, jsParseIntOr0_padStart_natDigits,
      jsParseIntOr0_padStart_natDigits, jsParseIntOr0_padStart_natDigits,
      Int.toNat_of_nonneg h0H, Int.toNat_of_nonneg h0M, Int.toNat_of_nonneg h0S,
      Int.toNat_of_nonneg h0MS]
  have hdecomp := clockParts_of_decomposed (totalOfHMS H M S MS) H M S MS
    h0H h0M hM h0S hS h0MS hMS (by rw [val_totalOfHMS]; ring)
  have hTC : normTotalClean (renderClock H M S MS) = totalOfHMS H M S MS := by
    unfold normTotalClean
    rw [hcont, hhms]
    simp
  unfold normalizeTimestamp
  rw [if_neg hmkne, hdata]
  unfold normTotalBody
  rw [hclean, hTC]
  unfold renderTotal
  rw [hdecomp.1, hdecomp.2.1, hdecomp.2.2.1, hdecomp.2.2.2]

/-! ## Spec-side active-segment resolver and sortedness -/

/-- Sorted by `startTime` ascending (as parsed). -/
def sortedByStart (segments : List TranscriptionSegment) : Prop :=
  List.Pairwise (fun a b =>
    (parseTimestamp a.startTime).leb (parseTimestamp b.startTime) = true) segments

/-- Modelled from the spec (§4.4), for comparison with `findActive`: the
earliest segment containing the playhead; otherwise the last segment whose
start is at most `playhead + 0.05`; otherwise none. -/
def specActive (segments : List TranscriptionSegment) (t : DecNum) : Int :=
  let normalized := normEntries segments
  match normalized.find? (containsB t) with
  | some m => (m.idx : Int)
  | none =>
    match (normalized.filter (fun m => m.start.leb (t.add ⟨5, 100⟩))).getLast? with
    | some m => (m.idx : Int)
    | none => -1

theorem fallback_cond_iff (m : NormEntry) (t : DecNum) :
    ((m.start.sub EPSILON).leb t = true) ↔ (m.start.leb (t.add ⟨5, 100⟩) = true) := by
  rw [DecNum.leb_iff, DecNum.leb_iff, DecNum.val_sub, DecNum.val_add]
  rw [show EPSILON.val = (⟨5, 100⟩ : DecNum).val from rfl]
  constructor <;> intro h <;> linarith

/-- Under sorted starts, the break-early fallback loop finds the last
entry whose start is within the epsilon window. -/
theorem fallbackScan_cons (m : NormEntry) (rest : List NormEntry) (t : DecNum)
    (cand : Int) :
    fallbackScan (m :: rest) t cand =
      if (m.start.sub EPSILON).leb t then fallbackScan rest t (m.idx : Int) else cand := rfl

theorem fallbackScan_eq_getLast (t : DecNum) :
    ∀ (ns : List NormEntry) (cand : Int),
      List.Pairwise (fun a b : NormEntry => a.start.val ≤ b.start.val) ns →
      fallbackScan ns t cand =
        (match (ns.filter (fun m => m.start.leb (t.add ⟨5, 100⟩))).getLast? with
         | some m => (m.idx : Int)
         | none => cand) := by
  intro ns
  induction ns with
  | nil => intro cand _; rfl
  | cons m rest ih =>
    intro cand hp
    rcases List.pairwise_cons.mp hp with ⟨hhead, htail⟩
    by_cases hc : (m.start.sub EPSILON).leb t = true
    · rw [fallbackScan_cons, if_pos hc]
      rw [ih (m.idx : Int) htail,
        List.filter_cons_of_pos (by exact (fallback_cond_iff m t).mp hc)]
      cases hfr : rest.filter (fun x => x.start.leb (t.add ⟨5, 100⟩)) with
      | nil => simp
      | cons y ys =>
        rw [List.getLast?_cons_cons]
        cases hl : (y :: ys).getLast? with
        | some z => rfl
        | none => exact absurd hl (by simp)
    · rw [fallbackScan_cons, if_neg hc]
      have hmf : m.start.leb (t.add ⟨5, 100⟩) = false :=
        Bool.eq_false_iff.mpr (fun habs => hc ((fallback_cond_iff m t).mpr habs))
      rw [List.filter_cons_of_neg (by simp [hmf]),
        List.filter_eq_nil_iff.mpr (fun x hx => by
          have hle := hhead x hx
          have : ¬ (x.start.leb (t.add ⟨5, 100⟩) = true) := by
            intro habs
            rw [DecNum.leb_iff, DecNum.val_add] at habs
            have hm : ¬ (m.start.val ≤ t.val + (⟨5, 100⟩ : DecNum).val) := by
              intro h2
              exact hc ((fallback_cond_iff m t).mpr (by
                rw [DecNum.leb_iff, DecNum.val_add]; exact h2))
            exact hm (by linarith)
          simpa using this)]
      rfl

/-- On sorted input, `findActive` implements the spec rule. -/
theorem findActive_eq_specActive (segments : List TranscriptionSegment) (t : DecNum)
    (hs : sortedByStart segments) : findActive segments t = specActive segments t := by
  have hpair : List.Pairwise (fun a b : NormEntry => a.start.val ≤ b.start.val)
      (normEntries segments) := by
    unfold normEntries
    rw [List.pairwise_map]
    have h2 : List.Pairwise (fun p q : Nat × TranscriptionSegment =>
        (parseTimestamp p.2.startTime).leb (parseTimestamp q.2.startTime) = true)
        segments.enum := by
      have h3 := hs
      unfold sortedByStart at h3
      rw [← List.enum_map_snd segments, List.pairwise_map] at h3
      exact h3
    exact h2.imp (fun hab => (DecNum.leb_iff _ _).mp hab)
  unfold findActive specActive
  by_cases hlen : segments.length = 0
  · rw [if_pos hlen]
    have hnil : segments = [] := List.length_eq_zero.mp hlen
    subst hnil
    rfl
  · rw [if_neg hlen]
    dsimp only
    have hfh := (List.filter_head? (containsB t) (normEntries segments)).symm
    cases hfm : (normEntries segments).filter (containsB t) with
    | cons m rest =>
      rw [hfm] at hfh
      rw [hfh]
      rfl
    | nil =>
      rw [hfm] at hfh
      rw [hfh]
      exact fallbackScan_eq_getLast t (normEntries segments) (-1) hpair

/-- Regardless of input order: if any segment contains the playhead,
`findActive` returns the index of a containing segment. -/
theorem findActive_containing (segments : List TranscriptionSegment) (t : DecNum)
    (h : ∃ s ∈ segments, (parseTimestamp s.startTime).leb t = true ∧
      t.ltb (parseTimestamp s.endTime) = true) :
    ∃ i : Nat, findActive segments t = (i : Int) ∧ ∃ s, segments.get? i = some s ∧
      (parseTimestamp s.startTime).leb t = true ∧
      t.ltb (parseTimestamp s.endTime) = true := by
  obtain ⟨s, hmem, hc1, hc2⟩ := h
  obtain ⟨n, hn⟩ := List.mem_iff_get?.mp hmem
  have hen : (n, s) ∈ segments.enum := by
    rw [List.mk_mem_enum_iff_get?]
    exact hn
  have hentry : NormEntry.mk n (parseTimestamp s.startTime) (parseTimestamp s.endTime) ∈
      normEntries segments := by
    unfold normEntries
    exact List.mem_map.mpr ⟨(n, s), hen, rfl⟩
  have hcont : containsB t (NormEntry.mk n (parseTimestamp s.startTime)
      (parseTimestamp s.endTime)) = true := by
    unfold containsB
    rw [hc1, hc2]
    rfl
  have hfilt : NormEntry.mk n (parseTimestamp s.startTime) (parseTimestamp s.endTime) ∈
      (normEntries segments).filter (containsB t) :=
    List.mem_filter.mpr ⟨hentry, hcont⟩
  have hlen : ¬ segments.length = 0 := by
    intro habs
    rw [List.length_eq_zero.mp habs] at hmem
    simp at hmem
  unfold findActive
  rw [if_neg hlen]
  dsimp only
  cases hfm : (normEntries segments).filter (containsB t) with
  | nil =>
    rw [hfm] at hfilt
    simp at hfilt
  | cons m rest =>
    have hm : m ∈ (normEntries segments).filter (containsB t) := by
      rw [hfm]
      exact List.mem_cons_self m rest
    have hmc : containsB t m = true := (List.mem_filter.mp hm).2
    have hmn : m ∈ normEntries segments := (List.mem_filter.mp hm).1
    unfold normEntries at hmn
    obtain ⟨p, hp, hpm⟩ := List.mem_map.mp hmn
    refine ⟨m.idx, rfl, p.2, ?_, ?_, ?_⟩
    · rw [← hpm]
      exact List.mk_mem_enum_iff_get?.mp (by
        have : (p.1, p.2) = p := rfl
        rw [this]
        exact hp)
    · have : m.start = parseTimestamp p.2.startTime := by rw [← hpm]
      rw [← this]
      exact (Bool.and_eq_true _ _ |>.mp hmc).1
    · have : m.stop = parseTimestamp p.2.endTime := by rw [← hpm]
      rw [← this]
      exact (Bool.and_eq_true _ _ |>.mp hmc).2

/-! ## The claims -/

/-- Error detector for the repair cascade result. -/
def isRepairError : Except String JsValue → Bool
  | .error _ => true
  | .ok _ => false

/-- C1 counterexample: the blob `{"segments":[]}` is accepted by the direct
parse with zero records recovered and no terminal failure — an empty
`segments` array is truthy in JS — refuting the claimed "fails iff all three
stages recover zero records". -/
theorem C1_counterexample :
    tryRepairJson "\x7b\"segments\":[]\x7d" =
      Except.ok (JsValue.obj [("segments", JsValue.arr [])]) ∧
    segmentsOf (JsValue.obj [("segments", JsValue.arr [])]) = [] :=
  ⟨rfl, rfl⟩

/-- C1 (amended): `tryRepairJson` signals its terminal failure exactly when
the direct parse and the truncation repair both fail to produce an object
with a `segments` array (an empty array counts as success) and the tolerant
scan matches zero record fragments; whenever any stage succeeds the result
is returned without error. -/
theorem C1_error_iff (s : String) :
    isRepairError (tryRepairJson s) = true ↔
      stage1 (jsTrim s.data) = none ∧ stage2 (jsTrim s.data) = none ∧
        scanSegments (jsTrim s.data) = [] := by
  unfold tryRepairJson
  dsimp only
  generalize stage1 (jsTrim s.data) = r1
  cases r1 with
  | some v => simp [isRepairError]
  | none =>
    generalize stage2 (jsTrim s.data) = r2
    cases r2 with
    | some v => simp [isRepairError]
    | none =>
      generalize scanSegments (jsTrim s.data) = L
      by_cases h3 : 0 < L.length
      · rw [if_pos h3]
        simp [isRepairError, List.ne_nil_of_length_pos h3]
      · rw [if_neg h3]
        have hz : L = [] := List.length_eq_zero.mp (by omega)
        simp [isRepairError, hz]

/-- The truncated-mid-record blob of spec §8. -/
def truncatedBlob : String :=
  "\x7b\"segments\":[\x7b\"startTime\":\"0:00\",\"endTime\":\"0:02\",\"text\":\"Hi\"\x7d,\x7b\"startTime\":\"0:02\",\"endTime\":\"0"

/-- The value the truncation repair recovers from `truncatedBlob`. -/
def truncatedBlobRepaired : JsValue :=
  JsValue.obj [("segments", JsValue.arr [JsValue.obj
    [("startTime", JsValue.str "0:00"), ("endTime", JsValue.str "0:02"),
      ("text", JsValue.str "Hi")]])]

/-- C2: when the direct parse fails and the cut-at-last-`}`-and-close
re-parse succeeds, `tryRepairJson` returns that re-parsed value; on the §8
truncated blob, the direct parse fails, the repair text is the blob cut at
the last fully-closed record and closed with `]}`, and exactly one record
`{startTime: "0:00", endTime: "0:02", text: "Hi"}` is recovered. -/
theorem C2_truncation_repair :
    (∀ (s : String) (v : JsValue), stage1 (jsTrim s.data) = none →
      stage2 (jsTrim s.data) = some v → tryRepairJson s = Except.ok v) ∧
    stage1 (jsTrim truncatedBlob.data) = none ∧
    repairCut (jsTrim truncatedBlob.data) =
      some ("\x7b\"segments\":[\x7b\"startTime\":\"0:00\",\"endTime\":\"0:02\",\"text\":\"Hi\"\x7d]\x7d").data ∧
    tryRepairJson truncatedBlob = Except.ok truncatedBlobRepaired ∧
    segmentsOf truncatedBlobRepaired = [JsValue.obj
      [("startTime", JsValue.str "0:00"), ("endTime", JsValue.str "0:02"),
        ("text", JsValue.str "Hi")]] := by
  refine ⟨?_, rfl, rfl, rfl, rfl⟩
  intro s v h1 h2
  unfold tryRepairJson
  dsimp only
  rw [h1, h2]

/-- C2 witness: the universal clause applied at the §8 blob, hypotheses
evaluated. -/
theorem C2_witness : tryRepairJson truncatedBlob = Except.ok truncatedBlobRepaired :=
  C2_truncation_repair.1 truncatedBlob truncatedBlobRepaired rfl rfl

/-- C4 counterexample: `normalize("0.9996")` renders `"00:00:00.1000"` — the
millisecond rounding overflows to a 4-digit field, so the output is not the
claimed always-reduced `HH:MM:SS.mmm` shape. -/
theorem C4_counterexample :
    normalizeTimestamp "0.9996" = "00:00:00.1000" ∧
      canonicalShape (normalizeTimestamp "0.9996") = false := by
  constructor <;> decide

/-- C4 (amended): every output renders recomputed fields with minutes and
seconds reduced to `[0, 59]` and milliseconds to `[0, 1000]`; the output has
the canonical zero-padded `HH:MM:SS.mmm` shape exactly when the hour field
fits two digits and the rounded milliseconds stay below 1000; and
`normalize("00:65.250")` yields total seconds `65.25` rendered as
`"00:01:05.250"`. -/
theorem C4_reduced_render :
    (∀ ts : String, ∃ H M S MS : Int,
      normalizeTimestamp ts = String.mk (renderClock H M S MS) ∧
      0 ≤ H ∧ 0 ≤ M ∧ M ≤ 59 ∧ 0 ≤ S ∧ S ≤ 59 ∧ 0 ≤ MS ∧ MS ≤ 1000 ∧
      canonicalShape (normalizeTimestamp ts) = (decide (H ≤ 99) && decide (MS ≤ 999))) ∧
    normalizeTimestamp "00:65.250" = "00:01:05.250" ∧
    (normTotalBody "00:65.250".data).val = 65.25 := by
  refine ⟨?_, by decide, ?_⟩
  · intro ts
    have ht : 0 ≤ (if ts = "" then DecNum.ofNat 0 else normTotalBody ts.data).val := by
      by_cases h : ts = ""
      · rw [if_pos h, DecNum.val_ofNat]
        norm_num
      · rw [if_neg h]
        exact normTotalBody_nonneg ts.data
    have hb := clockParts_bounds _ ht
    refine ⟨(normParts ts).1, (normParts ts).2.1, (normParts ts).2.2.1, (normParts ts).2.2.2,
      normalizeTimestamp_eq ts, hb.1, hb.2.1.1, hb.2.1.2, hb.2.2.1.1, hb.2.2.1.2,
      hb.2.2.2.1, hb.2.2.2.2, ?_⟩
    rw [normalizeTimestamp_eq ts]
    exact canonicalShape_renderClock _ _ _ _ hb.1 hb.2.1.1 hb.2.1.2 hb.2.2.1.1
      hb.2.2.1.2 hb.2.2.2.1 hb.2.2.2.2
  · have h : normTotalBody "00:65.250".data = ⟨65250, 1000⟩ := by decide
    rw [h]
    rw [show (⟨65250, 1000⟩ : DecNum).val = (65250 : ℚ) / ((1000 : ℕ) : ℚ) from rfl]
    norm_num

/-- C5 counterexample: the cleaning step strips the minus sign, so the
negative token `"-5"` normalizes to `"00:00:05.000"`, not to the claimed
`"00:00:00.000"`. -/
theorem C5_counterexample :
    normalizeTimestamp "-5" = "00:00:05.000" ∧
      ("00:00:05.000" : String) ≠ "00:00:00.000" := by
  constructor <;> decide

/-- C5 (amended): the normalizer is total and never raises; it is invariant
under its own cleaning pass (so any stripped character, including a minus
sign or unit suffix, cannot influence the result), unparseable tokens and
the empty string normalize to `"00:00:00.000"`, and a negative token
normalizes as its unsigned digits. -/
theorem C5_total_clamp :
    (∀ ts : String, normalizeTimestamp ts = normalizeTimestamp (String.mk (cleanTs ts.data))) ∧
    normalizeTimestamp "" = "00:00:00.000" ∧
    normalizeTimestamp "garbage!" = "00:00:00.000" ∧
    normalizeTimestamp "..." = "00:00:00.000" ∧
    normalizeTimestamp "-5" = "00:00:05.000" := by
  refine ⟨?_, by decide, by decide, by decide, by decide⟩
  intro ts
  by_cases h0 : ts = ""
  · subst h0
    decide
  · by_cases hnil : cleanTs ts.data = []
    · rw [show String.mk (cleanTs ts.data) = "" from by rw [hnil]]
      unfold normalizeTimestamp
      rw [if_neg h0, if_pos rfl]
      unfold normTotalBody
      rw [hnil]
      decide
    · have hne2 : String.mk (cleanTs ts.data) ≠ "" := fun habs =>
        hnil (congrArg String.data habs)
      unfold normalizeTimestamp
      rw [if_neg h0, if_neg hne2]
      unfold normTotalBody
      rw [show (String.mk (cleanTs ts.data)).data = cleanTs ts.data from rfl,
        cleanTs_idem]

/-- C3: on three colon-delimited components the normalizer treats the token
as `HH:MM:SS.mmm` when the third component carries a dot, as `MM:SS:mmm`
when the bare third component has exactly 3 digits or parses above 59, and
as `HH:MM:SS` otherwise — stated on both the rendered output and the exact
total-seconds value. -/
theorem C3_three_component_rule (ts : String) (a b c : List Char)
    (hsplit : splitChar (cleanTs ts.data) ':' = [a, b, c]) :
    normalizeTimestamp ts = String.mk (renderTotal (
      if containsChar c '.' then
        totalOfHMS (jsParseIntOr0 a) (jsParseIntOr0 b)
          (jsParseIntOr0 ((splitChar c '.').headD []))
          (jsParseIntOr0 (padEndChars 3 '0' (((splitChar c '.').getD 1 []).take 3)))
      else if c.length = 3 ∨ jsParseIntOr0 c > 59 then
        totalOfHMS 0 (jsParseIntOr0 a) (jsParseIntOr0 b) (jsParseIntOr0 c)
      else
        totalOfHMS (jsParseIntOr0 a) (jsParseIntOr0 b) (jsParseIntOr0 c) 0)) ∧
    (normTotalBody ts.data).val =
      (if containsChar c '.' then
        (jsParseIntOr0 a : ℚ) * 3600 + (jsParseIntOr0 b : ℚ) * 60 +
          (jsParseIntOr0 ((splitChar c '.').headD []) : ℚ) +
          (jsParseIntOr0 (padEndChars 3 '0' (((splitChar c '.').getD 1 []).take 3)) : ℚ) / 1000
      else if c.length = 3 ∨ jsParseIntOr0 c > 59 then
        (jsParseIntOr0 a : ℚ) * 60 + (jsParseIntOr0 b : ℚ) + (jsParseIntOr0 c : ℚ) / 1000
      else
        (jsParseIntOr0 a : ℚ) * 3600 + (jsParseIntOr0 b : ℚ) * 60 + (jsParseIntOr0 c : ℚ)) := by
  have hne : ts ≠ "" := by
    intro h0
    subst h0
    rw [show cleanTs ("" : String).data = [] from rfl] at hsplit
    simp [splitChar, splitCharAux] at hsplit
  have hcont := splitChar_contains_of_two hsplit
  have hTC : normTotalClean (cleanTs ts.data) =
      (if containsChar c '.' then
        totalOfHMS (jsParseIntOr0 a) (jsParseIntOr0 b)
          (jsParseIntOr0 ((splitChar c '.').headD []))
          (jsParseIntOr0 (padEndChars 3 '0' (((splitChar c '.').getD 1 []).take 3)))
      else if c.length = 3 ∨ jsParseIntOr0 c > 59 then
        totalOfHMS 0 (jsParseIntOr0 a) (jsParseIntOr0 b) (jsParseIntOr0 c)
      else
        totalOfHMS (jsParseIntOr0 a) (jsParseIntOr0 b) (jsParseIntOr0 c) 0) := by
    unfold normTotalClean
    rw [hcont, hsplit]
    simp only [Bool.not_true, Bool.false_and, Bool.false_eq_true, if_false, partsHMS]
    by_cases hdot : containsChar c '.' = true
    · rw [if_pos hdot, if_pos hdot]
    · rw [if_neg hdot, if_neg hdot]
      by_cases hlen : c.length = 3 ∨ jsParseIntOr0 c > 59
      · rw [if_pos hlen, if_pos hlen]
      · rw [if_neg hlen, if_neg hlen]
  constructor
  · unfold normalizeTimestamp
    rw [if_neg hne]
    unfold normTotalBody
    rw [hTC]
  · unfold normTotalBody
    rw [hTC]
    by_cases hdot : containsChar c '.' = true
    · rw [if_pos hdot, if_pos hdot, val_totalOfHMS]
    · rw [if_neg hdot, if_neg hdot]
      by_cases hlen : c.length = 3 ∨ jsParseIntOr0 c > 59
      · rw [if_pos hlen, if_pos hlen, val_totalOfHMS]
        push_cast
        ring
      · rw [if_neg hlen, if_neg hlen, val_totalOfHMS]
        push_cast
        ring

/-- C3 witness: the rule applied at `"1:02:03.500"` (dot branch). -/
theorem C3_witness : normalizeTimestamp "1:02:03.500" = "01:02:03.500" := by
  have h := C3_three_component_rule "1:02:03.500" "1".data "02".data "03.500".data (by decide)
  rw [h.1]
  decide

/-- A two-segment list whose order violates startTime-ascending sorting. -/
def unsortedPair : List TranscriptionSegment :=
  [⟨"10", "11", "a", none⟩, ⟨"0", "1", "b", none⟩]

/-- `unsortedPair` reordered by ascending startTime. -/
def sortedPair : List TranscriptionSegment :=
  [⟨"0", "1", "b", none⟩, ⟨"10", "11", "a", none⟩]

/-- The two-segment list of spec §4.4, with times (0,2) and (2,5). -/
def demoSegs : List TranscriptionSegment :=
  [⟨"0", "2", "a", none⟩, ⟨"2", "5", "b", none⟩]

/-- C6 counterexample: over the unsorted list [(10,11),(0,1)] at playhead 5
no segment contains the playhead, segment 1 has start 0 ≤ 5.05, yet the
resolver returns −1 (its fallback scan stops at the first too-late start)
instead of the claimed last candidate. -/
theorem C6_counterexample :
    findActive unsortedPair ⟨5, 1⟩ = -1 ∧ specActive unsortedPair ⟨5, 1⟩ = 1 := by
  constructor <;> decide

/-- C6 (amended): on segment lists sorted by start time the resolver
returns the earliest containing segment, else the last segment whose start
is at most playhead + 0.05, else −1; the four §4.4 examples hold. -/
theorem C6_resolver_rule (segments : List TranscriptionSegment) (t : DecNum)
    (hs : sortedByStart segments) :
    findActive segments t = specActive segments t ∧
    findActive demoSegs ⟨199, 100⟩ = 0 ∧ findActive demoSegs ⟨2, 1⟩ = 1 ∧
    findActive demoSegs ⟨6, 1⟩ = 1 ∧ findActive demoSegs ⟨-1, 1⟩ = -1 :=
  ⟨findActive_eq_specActive segments t hs, by decide, by decide, by decide, by decide⟩

/-- C6 witness: the amended rule applied to the §4.4 sorted list. -/
theorem C6_witness :
    findActive demoSegs ⟨199, 100⟩ = specActive demoSegs ⟨199, 100⟩ ∧
    findActive demoSegs ⟨199, 100⟩ = 0 ∧ findActive demoSegs ⟨2, 1⟩ = 1 ∧
    findActive demoSegs ⟨6, 1⟩ = 1 ∧ findActive demoSegs ⟨-1, 1⟩ = -1 :=
  C6_resolver_rule demoSegs ⟨199, 100⟩ (by unfold sortedByStart; decide)

/-- C7 counterexample: list order is not irrelevant to the resolver — the
same two segments at playhead 5 resolve to −1 unsorted but to the entry
with start 0 once sorted ascending (sortedPair is a permutation of
unsortedPair and is sorted). -/
theorem C7_counterexample :
    findActive unsortedPair ⟨5, 1⟩ = -1 ∧ findActive sortedPair ⟨5, 1⟩ = 0 ∧
      sortedPair.Perm unsortedPair ∧ sortedByStart sortedPair := by
  refine ⟨by decide, by decide, by decide, by unfold sortedByStart; decide⟩

/-- C7 (amended): order-insensitivity holds only for containment — whenever
some segment contains the playhead, the resolver returns the index of a
containing segment regardless of list order; fallback resolution is
order-sensitive. -/
theorem C7_order_containment (segments : List TranscriptionSegment) (t : DecNum)
    (h : ∃ s ∈ segments, (parseTimestamp s.startTime).leb t = true ∧
      t.ltb (parseTimestamp s.endTime) = true) :
    ∃ i : Nat, findActive segments t = (i : Int) ∧ ∃ s, segments.get? i = some s ∧
      (parseTimestamp s.startTime).leb t = true ∧
      t.ltb (parseTimestamp s.endTime) = true :=
  findActive_containing segments t h

/-- C7 witness: containment guarantee applied at `demoSegs`, playhead 1. -/
theorem C7_witness :
    ∃ i : Nat, findActive demoSegs ⟨1, 1⟩ = (i : Int) ∧ ∃ s, demoSegs.get? i = some s ∧
      (parseTimestamp s.startTime).leb ⟨1, 1⟩ = true ∧
      DecNum.ltb ⟨1, 1⟩ (parseTimestamp s.endTime) = true :=
  C7_order_containment demoSegs ⟨1, 1⟩
    ⟨⟨"0", "2", "a", none⟩, by decide, by decide, by decide⟩

/-- C8 counterexample: the gap-aware LRC exporter does not collapse the
text's internal newlines — `"a\nb"` is emitted verbatim, newline included,
refuting the claimed collapsed-to-spaces output. -/
theorem C8_counterexample :
    Exporters2.exportAsLRC [⟨"0", "2", "a\nb", none⟩] .original none =
      "[00:00.00]a\nb\n[00:06.00]" ∧
    '\n' ∈ ("a\nb" : String).data := by
  constructor <;> decide

/-- C8 (amended): the gap-aware exporter emits one `[MM:SS.hh]text` line
per segment with the text verbatim, follows it by a timestamp-only clearing
line at `end + 4` when the next start exceeds `end + 4`, and after the
final segment emits the clearing line always when the duration is unknown
and exactly when `end + 4 ≤ duration` otherwise; newline collapsing lives
only in the marker-less exporter variant. -/
theorem C8_lrc_rules :
    (∀ (type : ExportType) (td : Option DecNum) (s next : TranscriptionSegment)
        (rest : List TranscriptionSegment),
      Exporters2.lrcLines type td (s :: next :: rest) =
        (Exporters2.formatSecondsToLRC (Exporters2.parseTimestampToSeconds s.startTime) ++
            (selText type s).data) ::
          ((if Exporters2.nGt (Exporters2.parseTimestampToSeconds next.startTime)
                (Exporters2.nAdd (Exporters2.parseTimestampToSeconds s.endTime)
                  (some (DecNum.ofNat 4)))
            then [Exporters2.formatSecondsToLRC (Exporters2.nAdd
              (Exporters2.parseTimestampToSeconds s.endTime) (some (DecNum.ofNat 4)))]
            else []) ++ Exporters2.lrcLines type td (next :: rest))) ∧
    (∀ (type : ExportType) (d : DecNum) (s : TranscriptionSegment),
      Exporters2.lrcLines type (some d) [s] =
        (Exporters2.formatSecondsToLRC (Exporters2.parseTimestampToSeconds s.startTime) ++
            (selText type s).data) ::
          (if Exporters2.nLe (Exporters2.nAdd (Exporters2.parseTimestampToSeconds s.endTime)
              (some (DecNum.ofNat 4))) (some d)
           then [Exporters2.formatSecondsToLRC (Exporters2.nAdd
             (Exporters2.parseTimestampToSeconds s.endTime) (some (DecNum.ofNat 4)))]
           else [])) ∧
    (∀ (type : ExportType) (s : TranscriptionSegment),
      Exporters2.lrcLines type none [s] =
        [Exporters2.formatSecondsToLRC (Exporters2.parseTimestampToSeconds s.startTime) ++
            (selText type s).data,
          Exporters2.formatSecondsToLRC (Exporters2.nAdd
            (Exporters2.parseTimestampToSeconds s.endTime) (some (DecNum.ofNat 4)))]) ∧
    Exporters2.exportAsLRC [⟨"0", "2", "A", none⟩, ⟨"0:10", "0:12", "B", none⟩]
      .original none = "[00:00.00]A\n[00:06.00]\n[00:10.00]B\n[00:16.00]" ∧
    Exporters2.exportAsLRC [⟨"0", "2", "A", none⟩, ⟨"0:10", "0:12", "B", none⟩]
      .original (some (DecNum.ofNat 14)) = "[00:00.00]A\n[00:06.00]\n[00:10.00]B" ∧
    Exporters2.exportAsLRC [⟨"0", "2", "A", none⟩, ⟨"0:10", "0:12", "B", none⟩]
      .original (some (DecNum.ofNat 16)) = "[00:00.00]A\n[00:06.00]\n[00:10.00]B\n[00:16.00]" ∧
    Exporters1.exportAsLRC [⟨"0", "2", "a\nb", none⟩] .original none = "[00:00.00]a b" :=
  ⟨fun _ _ _ _ _ => rfl,
    fun type d s => by simp only [Exporters2.lrcLines, List.append_nil],
    fun _ _ => rfl, by decide, by decide, by decide, by decide⟩

/-- Severely truncated blob with a double-quoted text holding escaped
quotes. -/
def blobA : String := "[\x7b\"startTime\":\"0:00\",\"endTime\":\"0:01\",\"text\":\"say \\\"hi\\\"\"\x7d"

/-- Severely truncated blob with a double-quoted text holding a `\n`
escape. -/
def blobB : String := "[\x7b\"startTime\":\"0:00\",\"endTime\":\"0:01\",\"text\":\"line1\\nline2\"\x7d"

/-- Severely truncated blob with a single-quoted text holding an escaped
single quote. -/
def blobC : String := "[\x7b\"startTime\":\"0:00\",\"endTime\":\"0:01\",\"text\":'it\\'s'\x7d"

/-- Severely truncated blob whose single-quoted text mixes a `\n` escape
with an escaped single quote. -/
def blobD : String := "[\x7b\"startTime\":\"0:00\",\"endTime\":\"0:01\",\"text\":'a\\nb\\'c'\x7d"

/-- C9 counterexample: on a single-quoted text `'a\nb\'c'` the JSON-string
unescape path fails (the `\'` escape is not valid JSON), and the fallback
rewrites only quote and backslash escapes, so the emitted record's text
keeps a leftover literal `\n` — backslash included — refuting "no record
ever carries leftover backslash-escapes". -/
theorem C9_counterexample :
    tryRepairJson blobD = Except.ok (JsValue.obj [("segments", JsValue.arr
      [JsValue.obj [("startTime", JsValue.str "0:00"), ("endTime", JsValue.str "0:01"),
        ("text", JsValue.str "a\\nb'c")]])]) ∧
    '\\' ∈ ("a\\nb'c" : String).data := by
  constructor
  · rfl
  · decide

/-- C9 (amended): the tolerant scan matches single- and double-quoted text
values with escaped quotes; a double-quoted text is unescaped through the
JSON string rules (so `\"` and `\n` resolve fully), and a single-quoted
text falls back to rewriting only the `\"`, `\'` and `\\` escapes, as the
three blobs show. -/
theorem C9_scan_quoting :
    tryRepairJson blobA = Except.ok (JsValue.obj [("segments", JsValue.arr
      [JsValue.obj [("startTime", JsValue.str "0:00"), ("endTime", JsValue.str "0:01"),
        ("text", JsValue.str "say \"hi\"")]])]) ∧
    tryRepairJson blobB = Except.ok (JsValue.obj [("segments", JsValue.arr
      [JsValue.obj [("startTime", JsValue.str "0:00"), ("endTime", JsValue.str "0:01"),
        ("text", JsValue.str "line1\nline2")]])]) ∧
    tryRepairJson blobC = Except.ok (JsValue.obj [("segments", JsValue.arr
      [JsValue.obj [("startTime", JsValue.str "0:00"), ("endTime", JsValue.str "0:01"),
        ("text", JsValue.str "it's")]])]) :=
  ⟨rfl, rfl, rfl⟩

/-- C10 counterexample: `normalize("0.9996")` is `"00:00:00.1000"`, whose
re-normalization is `"00:00:00.100"` — the normalizer is not idempotent
when millisecond rounding overflows. -/
theorem C10_counterexample :
    normalizeTimestamp (normalizeTimestamp "0.9996") ≠ normalizeTimestamp "0.9996" := by
  decide

/-- C10 (amended): the normalizer is idempotent on every input whose
rendered millisecond field stays below 1000 (i.e. whenever rounding does
not overflow the `.mmm` field). -/
theorem C10_idempotent (ts : String) (h : (normParts ts).2.2.2 ≤ 999) :
    normalizeTimestamp (normalizeTimestamp ts) = normalizeTimestamp ts := by
  have ht : 0 ≤ (if ts = "" then DecNum.ofNat 0 else normTotalBody ts.data).val := by
    by_cases h0 : ts = ""
    · rw [if_pos h0, DecNum.val_ofNat]
      norm_num
    · rw [if_neg h0]
      exact normTotalBody_nonneg ts.data
  have hb := clockParts_bounds _ ht
  rw [normalizeTimestamp_eq ts]
  exact normalizeTimestamp_renderClock _ _ _ _ hb.1 hb.2.1.1 hb.2.1.2 hb.2.2.1.1
    hb.2.2.1.2 hb.2.2.2.1 h

/-- C10 witness: idempotence applied at `"1:02:03.500"`. -/
theorem C10_witness :
    normalizeTimestamp (normalizeTimestamp "1:02:03.500") = normalizeTimestamp "1:02:03.500" :=
  C10_idempotent "1:02:03.500" (by decide)
